import Mathlib

/-!
# miniSTL: `Vector` and `List` over an explicit memory model

A shallow embedding of `miniSTL/vector.hpp` and `miniSTL/list.hpp`.

* Raw storage is explicit.  A block handed out by the allocator is a list of slots, a slot
  being `none` (allocated but holding no object) or `some x` (a constructed element of
  value `x`).  Every access outside an allocated block, every destruction or read of a slot
  that holds no object, is undefined behaviour and makes the operation return `Res.ub`
  (`none` for the memory primitives).
* An element of type `T` is known by its value.  Copying and moving both give the
  destination the value of the source; what a move assignment leaves in its source, and in
  an object assigned to itself, is what the element type says (`Movable`).  A `T const &`
  or `T &&` parameter is a reference (`Arg`): the object it refers to is read where the
  code reads it, in the memory of that moment.
* `size_t` arithmetic that can wrap is reduced modulo `2^64` (`usize`, `usub`).
* The allocator is the collaborator of the specification: `allocate` fails when the request
  exceeds what is available, and the failure is reported as `Res.bad_alloc` together with
  the state the operation left behind.
-/

namespace MiniSTL

variable {T : Type}

/-! ## Machine integers -/

/-- Unsigned 64-bit `size_t` arithmetic: a result reduced modulo `2^64`. -/
def usize (x : Nat) : Nat := x % 2 ^ 64

/-- The `size_t` subtraction `a - b`, which wraps around below zero (for `b ≤ 2^64`). -/
def usub (a b : Nat) : Nat := (a + (2 ^ 64 - b)) % 2 ^ 64

/-! ## Pointers and raw memory -/

/-- A pointer `T *`: the allocation it points into (`base`, with `0` for the null pointer)
and the element offset inside that allocation. -/
structure Ptr where
  base : Nat
  off : Nat
deriving DecidableEq, Repr

/-- The null pointer `nullptr`. -/
def Ptr.null : Ptr := ⟨0, 0⟩

/-- Pointer arithmetic `p + i`. -/
def Ptr.add (p : Ptr) (i : Nat) : Ptr := ⟨p.base, p.off + i⟩

/-- Pointer difference `a - b`, defined for two pointers into the same allocation with
`b` not after `a` (the positions a container hands out); anything else is outside the
contract and yields `none`. -/
def Ptr.diff (a b : Ptr) : Option Nat :=
  if a.base = b.base ∧ b.off ≤ a.off then some (a.off - b.off) else none

/-- The memory the allocator manages: the live blocks (each a list of slots), the next
allocation identifier, the number of element slots the allocator can still hand out, and
the running counts of element constructions and destructions. -/
structure Mem (T : Type) where
  blocks : Nat → Option (List (Option T))
  fresh : Nat
  avail : Nat
  constructed : Nat
  destroyed : Nat

/-- The slot a pointer designates, when it lies inside a live block. -/
def Mem.slot (m : Mem T) (p : Ptr) : Option (Option T) :=
  match m.blocks p.base with
  | some s => s[p.off]?
  | none => none

/-- Overwrite the slot a pointer designates. -/
def Mem.store (m : Mem T) (p : Ptr) (x : Option T) : Mem T :=
  { m with blocks := fun a =>
      if a = p.base then (m.blocks a).map (fun s => s.set p.off x) else m.blocks a }

/-- The allocator call `m_alloc.allocate(n)`: a fresh block of `n` uninitialised slots, or
`none` (the allocation error) when `n` slots are not available.  No single block reaches
`2^63` elements (`PTRDIFF_MAX`). -/
def allocate (n : Nat) (m : Mem T) : Option (Ptr × Mem T) :=
  if n ≤ m.avail ∧ n < 2 ^ 63 then
    some (⟨m.fresh, 0⟩,
      { m with
        blocks := fun a => if a = m.fresh then some (List.replicate n none) else m.blocks a
        fresh := m.fresh + 1
        avail := m.avail - n })
  else none

/-- The allocator call `m_alloc.deallocate(p, n)`: `p` must be the start of a live block of
exactly `n` slots. -/
def deallocate (p : Ptr) (n : Nat) (m : Mem T) : Option (Mem T) :=
  match m.blocks p.base with
  | some s =>
    if p.off = 0 ∧ s.length = n then
      some { m with
        blocks := fun a => if a = p.base then none else m.blocks a
        avail := m.avail + n }
    else none
  | none => none

/-- In-place construction `std::construct_at(p, val)`: `p` must designate a slot of a live
block. -/
def construct_at (p : Ptr) (val : T) (m : Mem T) : Option (Mem T) :=
  match m.slot p with
  | some _ => some { m.store p (some val) with constructed := m.constructed + 1 }
  | none => none

/-- In-place destruction `std::destroy_at(p)`: `p` must designate a constructed element. -/
def destroy_at (p : Ptr) (m : Mem T) : Option (Mem T) :=
  match m.slot p with
  | some (some _) => some { m.store p none with destroyed := m.destroyed + 1 }
  | _ => none

/-- Reading `*p`: `p` must designate a constructed element. -/
def load (p : Ptr) (m : Mem T) : Option T :=
  match m.slot p with
  | some (some x) => some x
  | _ => none

/-- What the moves of the element type `T` leave behind: `moved_from x` is the state of an
object that held `x` once it has been the source of a move, and `self_move x` is the
state of an object that held `x` once it has been move-assigned to itself.  Both are `x`
for a trivially copyable type such as `int`; both are the empty string for `std::string`
in the usual implementations. -/
class Movable (T : Type) where
  moved_from : T → T
  self_move : T → T

/-- The expression `std::construct_at(dst, std::move(*src))`.  The state the move leaves in
`*src` is not recorded: wherever this expression occurs, `std::destroy_at(src)` is the
next statement. -/
def move_construct (dst src : Ptr) (m : Mem T) : Option (Mem T) :=
  match load src m with
  | some x => construct_at dst x m
  | none => none

/-- The assignment `*dst = std::move(*src)` between two constructed elements: `*dst`
receives the value, `*src` is left moved-from; with `dst` and `src` the same object it is a
move-assignment of the object to itself. -/
def move_assign [Movable T] (dst src : Ptr) (m : Mem T) : Option (Mem T) :=
  match load src m, m.slot dst with
  | some x, some (some _) =>
    if dst = src then some (m.store dst (some (Movable.self_move x)))
    else some ((m.store src (some (Movable.moved_from x))).store dst (some x))
  | _, _ => none

/-- The object a `T const &` or `T &&` parameter refers to: an object outside the blocks of
the allocator (a local variable, a temporary), given by its value, or the element a pointer
designates. -/
inductive Arg (T : Type) where
  | obj (x : T)
  | elem (p : Ptr)

/-- Reading the object an argument refers to, in the memory `m`: undefined when the
pointer does not designate a constructed element (any more). -/
def Arg.read (val : Arg T) (m : Mem T) : Option T :=
  match val with
  | Arg.obj x => some x
  | Arg.elem p => load p m

/-- The expression `std::construct_at(dst, val)` for a parameter `val`: a copy
construction from the object `val` refers to. -/
def construct_from (dst : Ptr) (val : Arg T) (m : Mem T) : Option (Mem T) :=
  match val.read m with
  | some x => construct_at dst x m
  | none => none

/-- An ascending loop `for (i = a; i < b; ++i) body(i)`: `forUp body a (b - a)` runs the
body at `a, a + 1, ...`, once per iteration. -/
def forUp (body : Nat → Mem T → Option (Mem T)) : Nat → Nat → Mem T → Option (Mem T)
  | _, 0, m => some m
  | i, k + 1, m =>
    match body i m with
    | some m1 => forUp body (i + 1) k m1
    | none => none

/-- A descending loop `for (i = b; i > a; --i) body(i)`: `forDown body b (b - a)` runs the
body at `b, b - 1, ...`, once per iteration. -/
def forDown (body : Nat → Mem T → Option (Mem T)) : Nat → Nat → Mem T → Option (Mem T)
  | _, 0, m => some m
  | i, k + 1, m =>
    match body i m with
    | some m1 => forDown body (i - 1) k m1
    | none => none

/-! ## `Vector` -/

/-- The data members of `Vector<T>`: `m_data`, `m_size`, `m_cap`. -/
structure Vector where
  m_data : Ptr
  m_size : Nat
  m_cap : Nat
deriving DecidableEq, Repr

/-- Outcome of a `Vector` member function: normal return with a value, the object and the
memory; an allocation error propagating out, with the object and the memory as they were
left; or undefined behaviour. -/
inductive Res (T : Type) (α : Type) where
  | ok (a : α) (v : Vector) (m : Mem T)
  | bad_alloc (v : Vector) (m : Mem T)
  | ub

/-- The constructor `Vector()`. -/
def Vector.default : Vector := { m_data := Ptr.null, m_size := 0, m_cap := 0 }

/-- The member `size()`. -/
def Vector.size (v : Vector) : Nat := v.m_size

/-- The member `capacity()`. -/
def Vector.capacity (v : Vector) : Nat := v.m_cap

/-- The member `begin()`. -/
def Vector.begin (v : Vector) : Ptr := v.m_data

/-- The member `end()`. -/
def Vector.end_ (v : Vector) : Ptr := v.m_data.add v.m_size

/-- The element reads `m_data[0], ..., m_data[k - 1]`, starting at index `i`. -/
def read_range (m : Mem T) (p : Ptr) : Nat → Nat → Option (List T)
  | _, 0 => some []
  | i, k + 1 =>
    match load (p.add i) m, read_range m p (i + 1) k with
    | some x, some r => some (x :: r)
    | _, _ => none

/-- The elements of a vector, read through `operator[]` at the indices `0 .. size() - 1`. -/
def Vector.toList (m : Mem T) (v : Vector) : Option (List T) :=
  read_range m v.m_data 0 v.m_size

/-- One step of the relocation loop of `reserve`:
`std::construct_at(&new_data[i], std::move(m_data[i])); std::destroy_at(&m_data[i]);`. -/
def relocate (dst src : Ptr) (m : Mem T) : Option (Mem T) :=
  match move_construct dst src m with
  | some m1 => destroy_at src m1
  | none => none

/-- The member `reserve(n)`. -/
def reserve (n : Nat) (v : Vector) (m : Mem T) : Res T Unit :=
  if n ≤ v.m_cap then Res.ok () v m
  else
    let n1 := max n (usize (v.m_cap * 2))
    match allocate n1 m with
    | none => Res.bad_alloc v m
    | some (new_data, m1) =>
      match forUp (fun i mm => relocate (new_data.add i) (v.m_data.add i) mm) 0 (v.m_size - 0) m1 with
      | none => Res.ub
      | some m2 =>
        if v.m_data ≠ Ptr.null then
          match deallocate v.m_data v.m_cap m2 with
          | some m3 => Res.ok () { v with m_data := new_data, m_cap := n1 } m3
          | none => Res.ub
        else Res.ok () { v with m_data := new_data, m_cap := n1 } m2

/-- The members `push_back(T const &)` and `push_back(T &&)`: both construct the value at
`&m_data[m_size]` and increment `m_size`. -/
def push_back (val : T) (v : Vector) (m : Mem T) : Res T Unit :=
  match construct_at (v.m_data.add v.m_size) val m with
  | some m1 => Res.ok () { v with m_size := usize (v.m_size + 1) } m1
  | none => Res.ub

/-- The member `pop_back()`. -/
def pop_back (v : Vector) (m : Mem T) : Res T Unit :=
  let sz := usub v.m_size 1
  match destroy_at (v.m_data.add sz) m with
  | some m1 => Res.ok () { v with m_size := sz } m1
  | none => Res.ub

/-- The member `erase(T const *it)`. -/
def erase [Movable T] (it : Ptr) (v : Vector) (m : Mem T) : Res T Ptr :=
  match it.diff v.m_data with
  | none => Res.ub
  | some idx =>
    let sz := usub v.m_size 1
    match forUp (fun i mm => move_assign (v.m_data.add i) (v.m_data.add (i + 1)) mm)
        idx (sz - idx) m with
    | none => Res.ub
    | some m1 =>
      match destroy_at (v.m_data.add sz) m1 with
      | some m2 => Res.ok it { v with m_size := sz } m2
      | none => Res.ub

/-- The member `erase(const T *first, const T *last)`. -/
def erase_range [Movable T] (first last : Ptr) (v : Vector) (m : Mem T) : Res T Ptr :=
  match last.diff first, first.diff v.m_data, last.diff v.m_data with
  | some count, some _start_index, some end_index =>
    match forUp (fun i mm => move_assign (v.m_data.add (usub i count)) (v.m_data.add i) mm)
        end_index (v.m_size - end_index) m with
    | none => Res.ub
    | some m1 =>
      match forUp (fun i mm => destroy_at (v.m_data.add i) mm)
          (usub v.m_size count) (v.m_size - usub v.m_size count) m1 with
      | some m2 => Res.ok first { v with m_size := usub v.m_size count } m2
      | none => Res.ub
  | _, _, _ => Res.ub

/-- The growth step shared by the `insert` overloads:
`if (m_size + n >= m_cap) reserve(m_size + n);`. -/
def grow_for (n : Nat) (v : Vector) (m : Mem T) : Res T Unit :=
  if usize (v.m_size + n) ≥ v.m_cap then reserve (usize (v.m_size + n)) v m
  else Res.ok () v m

/-- The body shared by `insert(T const *it, T const &val)` and
`insert(T const *it, T &&val)`, which differ only in their last construction, `place`:
`std::construct_at(&m_data[idx], val)` for the first,
`std::construct_at(&m_data[idx], std::move(val))` for the second.  In both, `val` is read
there, after the growth step and the shifting loop. -/
def insert_body (place : Ptr → Mem T → Option (Mem T)) (it : Ptr) (v : Vector)
    (m : Mem T) : Res T Ptr :=
  match it.diff v.m_data with
  | none => Res.ub
  | some idx =>
    match grow_for 1 v m with
    | Res.ub => Res.ub
    | Res.bad_alloc v1 m1 => Res.bad_alloc v1 m1
    | Res.ok _ v1 m1 =>
      match forDown (fun i mm => relocate (v1.m_data.add i) (v1.m_data.add (i - 1)) mm)
          v1.m_size (v1.m_size - idx) m1 with
      | none => Res.ub
      | some m2 =>
        match place (v1.m_data.add idx) m2 with
        | some m3 => Res.ok (v1.m_data.add idx) { v1 with m_size := usize (v1.m_size + 1) } m3
        | none => Res.ub

/-- The member `insert(T const *it, T const &val)`. -/
def insert (it : Ptr) (val : Arg T) (v : Vector) (m : Mem T) : Res T Ptr :=
  insert_body (fun p mm => construct_from p val mm) it v m

/-- The member `insert(T const *it, size_t n, T const &val)`; the filling loop reads `val`
at each iteration. -/
def insert_n (it : Ptr) (n : Nat) (val : Arg T) (v : Vector) (m : Mem T) : Res T Ptr :=
  match it.diff v.m_data with
  | none => Res.ub
  | some idx =>
    if n = 0 then Res.ok it v m
    else
      match grow_for n v m with
      | Res.ub => Res.ub
      | Res.bad_alloc v1 m1 => Res.bad_alloc v1 m1
      | Res.ok _ v1 m1 =>
        match forDown (fun i mm =>
            relocate (v1.m_data.add (usub (usize (i + n)) 1)) (v1.m_data.add (i - 1)) mm)
            v1.m_size (v1.m_size - idx) m1 with
        | none => Res.ub
        | some m2 =>
          match forUp (fun i mm => construct_from (v1.m_data.add i) val mm)
              idx (usize (idx + n) - idx) m2 with
          | some m3 =>
            Res.ok (v1.m_data.add idx) { v1 with m_size := usize (v1.m_size + n) } m3
          | none => Res.ub

/-- The move constructor `Vector(Vector &&that)`: the new object and `that` afterwards. No
memory is touched. -/
def Vector.move_ctor (that : Vector) : Vector × Vector :=
  ({ m_data := that.m_data, m_size := that.m_size, m_cap := that.m_cap },
   { that with m_data := Ptr.null, m_size := 0, m_cap := 0 })

/-- The member `Vector::clear()`. -/
def Vector.clear (v : Vector) (m : Mem T) : Res T Unit :=
  match forUp (fun i mm => destroy_at (v.m_data.add i) mm) 0 (v.m_size - 0) m with
  | some m1 => Res.ok () { v with m_size := 0 } m1
  | none => Res.ub

/-- The member `Vector::empty()`: `return m_data == nullptr;`. -/
def Vector.empty (v : Vector) : Bool := decide (v.m_data = Ptr.null)

/-- The expression `std::construct_at(dst, *src)`, a copy construction. -/
def copy_construct (dst src : Ptr) (m : Mem T) : Option (Mem T) :=
  match load src m with
  | some x => construct_at dst x m
  | none => none

/-- The copy constructor `Vector(Vector const &that)`: `m_size(that.m_size)`,
`m_cap(that.m_size)`, `m_data(nullptr)`, then for a non-zero size a block of `m_size` slots
filled by `std::uninitialized_copy`. -/
def Vector.copy_ctor (that : Vector) (m : Mem T) : Res T Unit :=
  let v0 : Vector := { m_data := Ptr.null, m_size := that.m_size, m_cap := that.m_size }
  if v0.m_size ≠ 0 then
    match allocate v0.m_size m with
    | none => Res.bad_alloc v0 m
    | some (p, m1) =>
      match forUp (fun i mm => copy_construct (p.add i) (that.m_data.add i) mm)
          0 (v0.m_size - 0) m1 with
      | some m2 => Res.ok () { v0 with m_data := p } m2
      | none => Res.ub
  else Res.ok () v0 m

/-- The copy constructor `Vector(Vector const &that, Alloc const &alloc)`:
`m_size(that.m_size)`, `m_cap(that.m_cap)`, `m_data(nullptr)`, then for a non-zero size a
block of `m_size` slots filled element by element. -/
def Vector.copy_ctor_alloc (that : Vector) (m : Mem T) : Res T Unit :=
  let v0 : Vector := { m_data := Ptr.null, m_size := that.m_size, m_cap := that.m_cap }
  if v0.m_size ≠ 0 then
    match allocate v0.m_size m with
    | none => Res.bad_alloc v0 m
    | some (p, m1) =>
      match forUp (fun i mm => copy_construct (p.add i) (that.m_data.add i) mm)
          0 (v0.m_size - 0) m1 with
      | some m2 => Res.ok () { v0 with m_data := p } m2
      | none => Res.ub
  else Res.ok () v0 m

/-- The member `shrink_to_fit()`: `m_cap = m_size` comes first, then the allocation of the
new block (none for size `0`), then, when the old capacity is not `0`, the relocation of
the elements and the deallocation of the old block. -/
def shrink_to_fit (v : Vector) (m : Mem T) : Res T Unit :=
  let old_data := v.m_data
  let old_cap := v.m_cap
  let v1 : Vector := { v with m_cap := v.m_size }
  let r : Option (Vector × Mem T) :=
    if v1.m_size = 0 then some ({ v1 with m_data := Ptr.null }, m)
    else
      match allocate v1.m_size m with
      | some (p, m1) => some ({ v1 with m_data := p }, m1)
      | none => none
  match r with
  | none => Res.bad_alloc v1 m
  | some (v2, m1) =>
    if old_cap ≠ 0 then
      match forUp (fun i mm => relocate (v2.m_data.add i) (old_data.add i) mm)
          0 (v2.m_size - 0) m1 with
      | none => Res.ub
      | some m2 =>
        match deallocate old_data old_cap m2 with
        | some m3 => Res.ok () v2 m3
        | none => Res.ub
    else Res.ok () v2 m1

/-! ## `List` -/

/-- A node of the ring: `ListBaseNode` links, and for a `ListValueNode` the element storage
(`none` while no element is constructed there, as in the sentinel, which is a bare
`ListBaseNode`). -/
structure ListNode (T : Type) where
  m_next : Nat
  m_prev : Nat
  m_value : Option T
deriving DecidableEq, Repr

/-- The memory holding list nodes, by address (`0` is the null pointer), with the same
allocator bookkeeping as `Mem`. -/
structure NodeMem (T : Type) where
  nodes : Nat → Option (ListNode T)
  fresh : Nat
  avail : Nat
  constructed : Nat
  destroyed : Nat

/-- The data members of `List<T>` (named `LinkedList` here, `List` being taken): the
address of the embedded sentinel `m_dummy`, whose links live in the node memory, and
`m_size`. -/
structure LinkedList where
  m_dummy : Nat
  m_size : Nat
deriving DecidableEq, Repr

/-- The write `p->m_next = q`. -/
def set_next (p q : Nat) (m : NodeMem T) : Option (NodeMem T) :=
  match m.nodes p with
  | some nd =>
    some { m with nodes := fun a => if a = p then some { nd with m_next := q } else m.nodes a }
  | none => none

/-- The write `p->m_prev = q`. -/
def set_prev (p q : Nat) (m : NodeMem T) : Option (NodeMem T) :=
  match m.nodes p with
  | some nd =>
    some { m with nodes := fun a => if a = p then some { nd with m_prev := q } else m.nodes a }
  | none => none

/-- Writing both links of the sentinel embedded in a list object at address `d`. -/
def write_dummy (d next prev : Nat) (m : NodeMem T) : NodeMem T :=
  { m with nodes := fun a =>
      if a = d then some { m_next := next, m_prev := prev, m_value := none } else m.nodes a }

/-- The member `init_move(List &&that)`, run on the object `self`: the two objects and the
memory afterwards. -/
def init_move (self that : LinkedList) (m : NodeMem T) :
    Option (LinkedList × LinkedList × NodeMem T) :=
  match m.nodes that.m_dummy with
  | none => none
  | some td =>
    let prev := td.m_prev
    let next := td.m_next
    match set_next prev self.m_dummy m with
    | none => none
    | some m1 =>
      match set_prev next self.m_dummy m1 with
      | none => none
      | some m2 =>
        match m2.nodes that.m_dummy with
        | none => none
        | some td2 =>
          let m3 := write_dummy self.m_dummy td2.m_next td2.m_prev m2
          let m4 := write_dummy that.m_dummy that.m_dummy that.m_dummy m3
          some ({ self with m_size := that.m_size }, { that with m_size := 0 }, m4)

/-- The move constructor `List(List &&that)`, building the object whose sentinel is at
address `d`: `m_size(std::move(that.m_size))`, then `init_move(std::move(that))`. -/
def LinkedList.move_ctor (d : Nat) (that : LinkedList) (m : NodeMem T) :
    Option (LinkedList × LinkedList × NodeMem T) :=
  init_move { m_dummy := d, m_size := that.m_size } that m

/-- The copy constructor `List(List const &that)`, building the object whose sentinel is at
address `d`.  Its body is that of the move constructor,
`m_size(std::move(that.m_size))` then `init_move(std::move(that))`; the only `init_move`
overload taking a list is `init_move(List &&)`, which is the one modelled (a `const` list
does not bind to it, so the source is ill-formed wherever this constructor is
instantiated). -/
def LinkedList.copy_ctor (d : Nat) (that : LinkedList) (m : NodeMem T) :
    Option (LinkedList × LinkedList × NodeMem T) :=
  init_move { m_dummy := d, m_size := that.m_size } that m

/-- Forward iteration `for (it = cur; it != end(); ++it) *it`, for at most `fuel` elements;
`none` when an element is missing or the sentinel `stop` is not reached in time. -/
def iterate (m : NodeMem T) (stop : Nat) : Nat → Nat → Option (List T)
  | 0, cur => if cur = stop then some [] else none
  | fuel + 1, cur =>
    if cur = stop then some []
    else
      match m.nodes cur with
      | some nd =>
        match nd.m_value, iterate m stop fuel nd.m_next with
        | some x, some r => some (x :: r)
        | _, _ => none
      | none => none

/-- The iteration sequence of a list, from `begin()` to `end()`. -/
def LinkedList.toList (m : NodeMem T) (l : LinkedList) : Option (List T) :=
  match m.nodes l.m_dummy with
  | some d => iterate m l.m_dummy l.m_size d.m_next
  | none => none

/-- The member `List::size()`. -/
def LinkedList.size (l : LinkedList) : Nat := l.m_size

/-- Outcome of a `List` member function: normal return with a value, the object and the
memory; an allocation error propagating out, with the object and the memory as they were
left; or undefined behaviour. -/
inductive LRes (T : Type) (α : Type) where
  | ok (a : α) (l : LinkedList) (m : NodeMem T)
  | bad_alloc (l : LinkedList) (m : NodeMem T)
  | ub

/-- The read `p->m_next`. -/
def get_next (p : Nat) (m : NodeMem T) : Option Nat :=
  match m.nodes p with
  | some nd => some nd.m_next
  | none => none

/-- The read `p->m_prev`. -/
def get_prev (p : Nat) (m : NodeMem T) : Option Nat :=
  match m.nodes p with
  | some nd => some nd.m_prev
  | none => none

/-- The allocator call `AllocNode{m_alloc}.allocate(1)`: a fresh node whose links are not
set (modelled as null) and which holds no element, or `none` (the allocation error) when no
node is available.  Node addresses stay below `2^64`. -/
def allocate_node (m : NodeMem T) : Option (Nat × NodeMem T) :=
  if 1 ≤ m.avail ∧ m.fresh + 1 < 2 ^ 64 then
    some (m.fresh,
      { m with
        nodes := fun a =>
          if a = m.fresh then some { m_next := 0, m_prev := 0, m_value := none }
          else m.nodes a
        fresh := m.fresh + 1
        avail := m.avail - 1 })
  else none

/-- The allocator call `AllocNode{m_alloc}.deallocate(p, 1)`. -/
def deallocate_node (p : Nat) (m : NodeMem T) : Option (NodeMem T) :=
  match m.nodes p with
  | some _ =>
    some { m with
      nodes := fun a => if a = p then none else m.nodes a
      avail := m.avail + 1 }
  | none => none

/-- In-place construction `std::construct_at(&p->value(), val)`. -/
def construct_value (p : Nat) (val : T) (m : NodeMem T) : Option (NodeMem T) :=
  match m.nodes p with
  | some nd =>
    some { m with
      nodes := fun a => if a = p then some { nd with m_value := some val } else m.nodes a
      constructed := m.constructed + 1 }
  | none => none

/-- In-place destruction `std::destroy_at(&p->value())`: the node must hold an element. -/
def destroy_value (p : Nat) (m : NodeMem T) : Option (NodeMem T) :=
  match m.nodes p with
  | some nd =>
    match nd.m_value with
    | some _ =>
      some { m with
        nodes := fun a => if a = p then some { nd with m_value := none } else m.nodes a
        destroyed := m.destroyed + 1 }
    | none => none
  | none => none

/-- The constructor `List()`, building the object whose sentinel is at address `d`. -/
def LinkedList.ctor (d : Nat) (m : NodeMem T) : LinkedList × NodeMem T :=
  ({ m_dummy := d, m_size := 0 }, write_dummy d d d m)

/-- The member `begin()`: `iterator{m_dummy.m_next}`. -/
def LinkedList.begin (l : LinkedList) (m : NodeMem T) : Option Nat := get_next l.m_dummy m

/-- The member `end()`: `iterator{&m_dummy}`. -/
def LinkedList.end_ (l : LinkedList) : Nat := l.m_dummy

/-- The member `rbegin()`: `std::make_reverse_iterator(end())`, represented by the
position the reverse iterator stores. -/
def LinkedList.rbegin (l : LinkedList) : Nat := l.end_

/-- The members `push_back(T const &)` and `push_back(T &&)`. -/
def LinkedList.push_back (val : T) (l : LinkedList) (m : NodeMem T) : LRes T Unit :=
  let l1 : LinkedList := { l with m_size := usize (l.m_size + 1) }
  match allocate_node m with
  | none => LRes.bad_alloc l1 m
  | some (node, m0) =>
    match
      (get_prev l.m_dummy m0).bind fun last =>
      (set_prev node last m0).bind fun m1 =>
      (set_next node l.m_dummy m1).bind fun m2 =>
      (get_prev l.m_dummy m2).bind fun last2 =>
      (set_next last2 node m2).bind fun m3 =>
      (set_prev l.m_dummy node m3).bind fun m4 =>
      construct_value node val m4 with
    | some m5 => LRes.ok () l1 m5
    | none => LRes.ub

/-- The members `push_front(T const &)` and `push_front(T &&)`. -/
def LinkedList.push_front (val : T) (l : LinkedList) (m : NodeMem T) : LRes T Unit :=
  let l1 : LinkedList := { l with m_size := usize (l.m_size + 1) }
  match allocate_node m with
  | none => LRes.bad_alloc l1 m
  | some (node, m0) =>
    match
      (get_next l.m_dummy m0).bind fun first =>
      (set_prev first node m0).bind fun m1 =>
      (get_next l.m_dummy m1).bind fun first2 =>
      (set_next node first2 m1).bind fun m2 =>
      (set_prev node l.m_dummy m2).bind fun m3 =>
      (set_next l.m_dummy node m3).bind fun m4 =>
      construct_value node val m4 with
    | some m5 => LRes.ok () l1 m5
    | none => LRes.ub

/-- The members `insert(const_iterator pos, const T &val)` and
`insert(const_iterator pos, T &&val)`; the result is the iterator to the new node. -/
def LinkedList.insert (pos : Nat) (val : T) (l : LinkedList) (m : NodeMem T) : LRes T Nat :=
  let l1 : LinkedList := { l with m_size := usize (l.m_size + 1) }
  match allocate_node m with
  | none => LRes.bad_alloc l1 m
  | some (curr, m0) =>
    match
      (get_prev pos m0).bind fun p =>
      (set_prev curr p m0).bind fun m1 =>
      (get_prev pos m1).bind fun p2 =>
      (set_next p2 curr m1).bind fun m2 =>
      (set_next curr pos m2).bind fun m3 =>
      (set_prev pos curr m3).bind fun m4 =>
      construct_value curr val m4 with
    | some m5 => LRes.ok curr l1 m5
    | none => LRes.ub

/-- The member `erase(const_iterator pos)`; the result is the iterator to the next node. -/
def LinkedList.erase (pos : Nat) (l : LinkedList) (m : NodeMem T) : LRes T Nat :=
  match
    (get_next pos m).bind fun next =>
    (get_next pos m).bind fun q =>
    (get_prev pos m).bind fun p =>
    (set_prev q p m).bind fun m1 =>
    (get_prev pos m1).bind fun p2 =>
    (get_next pos m1).bind fun q2 =>
    (set_next p2 q2 m1).bind fun m2 =>
    (destroy_value pos m2).bind fun m3 =>
    (deallocate_node pos m3).bind fun m4 =>
    some (next, m4) with
  | some (next, m4) => LRes.ok next { l with m_size := usub l.m_size 1 } m4
  | none => LRes.ub

/-- The member `pop_front()`: `erase(this->begin())`. -/
def LinkedList.pop_front (l : LinkedList) (m : NodeMem T) : LRes T Unit :=
  match l.begin m with
  | none => LRes.ub
  | some b =>
    match LinkedList.erase b l m with
    | LRes.ok _ l1 m1 => LRes.ok () l1 m1
    | LRes.bad_alloc l1 m1 => LRes.bad_alloc l1 m1
    | LRes.ub => LRes.ub

/-- The member `pop_back()`: `erase(this->rbegin())`.  No conversion from the reverse
iterator to `const_iterator` exists (the source is ill-formed wherever this member is
instantiated); the position handed to `erase` is the one the reverse iterator stores. -/
def LinkedList.pop_back (l : LinkedList) (m : NodeMem T) : LRes T Unit :=
  match LinkedList.erase l.rbegin l m with
  | LRes.ok _ l1 m1 => LRes.ok () l1 m1
  | LRes.bad_alloc l1 m1 => LRes.bad_alloc l1 m1
  | LRes.ub => LRes.ub

/-- The member `List::empty()`: `return m_dummy.m_prev = m_dummy.m_next;`, an assignment
whose value, a pointer, is converted to `bool`. -/
def LinkedList.empty (l : LinkedList) (m : NodeMem T) : LRes T Bool :=
  match get_next l.m_dummy m with
  | none => LRes.ub
  | some next =>
    match set_prev l.m_dummy next m with
    | some m1 => LRes.ok (decide (next ≠ 0)) l m1
    | none => LRes.ub

/-- The loop of `insert(const_iterator pos, size_t n, T const &val)`, with its variables
`n`, `pos`, `isFirstInsert` and `result`. -/
def LinkedList.insert_n_loop (val : T) :
    Nat → Nat → Bool → Nat → LinkedList → NodeMem T → LRes T Nat
  | 0, _, _, result, l, m => LRes.ok result l m
  | n + 1, pos, isFirstInsert, result, l, m =>
    if isFirstInsert then
      match LinkedList.insert pos val l m with
      | LRes.ub => LRes.ub
      | LRes.bad_alloc l1 m1 => LRes.bad_alloc l1 m1
      | LRes.ok r l1 m1 =>
        match get_next pos m1 with
        | none => LRes.ub
        | some pos1 =>
          LinkedList.insert_n_loop val n pos1 false r
            { l1 with m_size := usize (l1.m_size + 1) } m1
    else
      match LinkedList.insert pos val { l with m_size := usize (l.m_size + 1) } m with
      | LRes.ub => LRes.ub
      | LRes.bad_alloc l1 m1 => LRes.bad_alloc l1 m1
      | LRes.ok _ l1 m1 =>
        match get_next pos m1 with
        | none => LRes.ub
        | some pos1 => LinkedList.insert_n_loop val n pos1 false result l1 m1

/-- The member `insert(const_iterator pos, size_t n, T const &val)`. -/
def LinkedList.insert_n (pos : Nat) (n : Nat) (val : T) (l : LinkedList) (m : NodeMem T) :
    LRes T Nat :=
  LinkedList.insert_n_loop val n pos true pos { l with m_size := usize (l.m_size + n) } m

/-- The loop of `insert(const_iterator pos, InputIt first, InputIt last)` over the values
of the range, with its variables `pos`, `isFirstInsert` and `result`. -/
def LinkedList.insert_range_loop :
    List T → Nat → Bool → Nat → LinkedList → NodeMem T → LRes T Nat
  | [], _, _, result, l, m => LRes.ok result l m
  | val :: rest, pos, isFirstInsert, result, l, m =>
    if isFirstInsert then
      match LinkedList.insert pos val l m with
      | LRes.ub => LRes.ub
      | LRes.bad_alloc l1 m1 => LRes.bad_alloc l1 m1
      | LRes.ok r l1 m1 =>
        match get_next pos m1 with
        | none => LRes.ub
        | some pos1 =>
          LinkedList.insert_range_loop rest pos1 false r
            { l1 with m_size := usize (l1.m_size + 1) } m1
    else
      match LinkedList.insert pos val { l with m_size := usize (l.m_size + 1) } m with
      | LRes.ub => LRes.ub
      | LRes.bad_alloc l1 m1 => LRes.bad_alloc l1 m1
      | LRes.ok _ l1 m1 =>
        match get_next pos m1 with
        | none => LRes.ub
        | some pos1 => LinkedList.insert_range_loop rest pos1 false result l1 m1

/-- The members `insert(const_iterator pos, InputIt first, InputIt last)` and
`insert(const_iterator pos, std::initializer_list<T>)`, the range holding `ys`. -/
def LinkedList.insert_range (pos : Nat) (ys : List T) (l : LinkedList) (m : NodeMem T) :
    LRes T Nat :=
  LinkedList.insert_range_loop ys pos true pos l m

/-- Following one link (`m_next` or `m_prev`) from `cur` until the sentinel `stop`: the
nodes passed, for at most `fuel` of them; `none` when a link leads outside the memory or
the sentinel is not reached in time. -/
def follow (link : ListNode T → Nat) (m : NodeMem T) (stop : Nat) :
    Nat → Nat → Option (List Nat)
  | 0, cur => if cur = stop then some [] else none
  | fuel + 1, cur =>
    if cur = stop then some []
    else
      match m.nodes cur with
      | some nd =>
        match follow link m stop fuel (link nd) with
        | some r => some (cur :: r)
        | none => none
      | none => none

/-- The element nodes met when following `m_next` from the sentinel back to it. -/
def LinkedList.forward (fuel : Nat) (m : NodeMem T) (l : LinkedList) : Option (List Nat) :=
  match m.nodes l.m_dummy with
  | some d => follow ListNode.m_next m l.m_dummy fuel d.m_next
  | none => none

/-- The element nodes met when following `m_prev` from the sentinel back to it. -/
def LinkedList.backward (fuel : Nat) (m : NodeMem T) (l : LinkedList) : Option (List Nat) :=
  match m.nodes l.m_dummy with
  | some d => follow ListNode.m_prev m l.m_dummy fuel d.m_prev
  | none => none

/-- Running a further member function on the outcome of a previous one. -/
def LRes.andThen {α β : Type} (r : LRes T α) (f : LinkedList → NodeMem T → LRes T β) :
    LRes T β :=
  match r with
  | LRes.ok _ l m => f l m
  | LRes.bad_alloc l m => LRes.bad_alloc l m
  | LRes.ub => LRes.ub

/-- The value returned by a member function, when it returns normally. -/
def LRes.value {α : Type} (r : LRes T α) : Option α :=
  match r with
  | LRes.ok a _ _ => some a
  | _ => none

/-- The loop of `init_move(size_t n)` and of `init_move(size_t n, T const &val)`, with its
variables `n` and `prev`; `val` is the value constructed in each node (`T()` for the first
overload).  The value returned is the pair of `n` and `prev` when the loop ends. -/
def LinkedList.init_move_n_loop (val : T) :
    Nat → Nat → LinkedList → NodeMem T → LRes T (Nat × Nat)
  | 0, prev, l, m => LRes.ok (0, prev) l m
  | n + 1, prev, l, m =>
    match allocate_node m with
    | none => LRes.bad_alloc l m
    | some (node, m0) =>
      match
        (set_next prev node m0).bind fun m1 =>
        (set_prev node prev m1).bind fun m2 =>
        construct_value node val m2 with
      | some m3 => LinkedList.init_move_n_loop val n node l m3
      | none => LRes.ub

/-- The members `init_move(size_t n)` and `init_move(size_t n, T const &val)`: the loop,
then `m_dummy.m_prev = prev; prev->m_next = &m_dummy; m_size = n;` with the `n` the loop
has left. -/
def LinkedList.init_move_n (n : Nat) (val : T) (l : LinkedList) (m : NodeMem T) :
    LRes T Unit :=
  match LinkedList.init_move_n_loop val n l.m_dummy l m with
  | LRes.ub => LRes.ub
  | LRes.bad_alloc l1 m1 => LRes.bad_alloc l1 m1
  | LRes.ok (n1, prev) l1 m1 =>
    match (set_prev l1.m_dummy prev m1).bind fun m2 => set_next prev l1.m_dummy m2 with
    | some m3 => LRes.ok () { l1 with m_size := n1 } m3
    | none => LRes.ub

/-- The constructors `List(size_t n, Alloc const &)` and
`List(size_t n, T const &val, Alloc const &)`, building the object whose sentinel is at
address `d`: the members start uninitialised (the links modelled as null, `m_size` as `0`)
and `init_move` runs. -/
def LinkedList.ctor_n (d n : Nat) (val : T) (m : NodeMem T) : LRes T Unit :=
  LinkedList.init_move_n n val { m_dummy := d, m_size := 0 } (write_dummy d 0 0 m)

/-- The loop of `clear()` from the node `cur`, for at most `fuel` nodes: the element of
each node is destroyed and the node deallocated.  `none` when a step is undefined or the
sentinel `stop` is not reached within `fuel` nodes. -/
def clear_loop (stop : Nat) : Nat → Nat → NodeMem T → Option (NodeMem T)
  | 0, cur, m => if cur = stop then some m else none
  | fuel + 1, cur, m =>
    if cur = stop then some m
    else
      (get_next cur m).bind fun temp =>
      (destroy_value cur m).bind fun m1 =>
      (deallocate_node cur m1).bind fun m2 =>
      clear_loop stop fuel temp m2

/-- The member `clear()`, its loop running for at most `fuel` nodes. -/
def LinkedList.clear (fuel : Nat) (l : LinkedList) (m : NodeMem T) : LRes T Unit :=
  match (get_next l.m_dummy m).bind fun cur => clear_loop l.m_dummy fuel cur m with
  | some m1 =>
    LRes.ok () { l with m_size := 0 } (write_dummy l.m_dummy l.m_dummy l.m_dummy m1)
  | none => LRes.ub

/-- The member `assign(size_t n, T const &val)`: `clear(); init_move(n, val);`. -/
def LinkedList.assign_n (fuel n : Nat) (val : T) (l : LinkedList) (m : NodeMem T) :
    LRes T Unit :=
  (l.clear fuel m).andThen (LinkedList.init_move_n n val)

/-- The member `back()`: `m_dummy.m_prev->value()`. -/
def LinkedList.back (l : LinkedList) (m : NodeMem T) : Option T :=
  (get_prev l.m_dummy m).bind fun p => (m.nodes p).bind fun nd => nd.m_value

/-! ## Sequences of `push_back` / `pop_back` -/

/-- Well-formed allocator state: nothing lives at the null address, and the identifiers
from `fresh` on are unused. -/
structure Mem.WF (m : Mem T) : Prop where
  null_free : m.blocks 0 = none
  fresh_pos : 0 < m.fresh
  fresh_free : ∀ a, m.fresh ≤ a → m.blocks a = none

/-- The allocator can satisfy a request for `n` slots. -/
def Mem.can_alloc (m : Mem T) (n : Nat) : Prop := n ≤ m.avail ∧ n < 2 ^ 63

/-- The vector `v` is in a valid state in memory `m` and holds the elements `xs`: `m_size`
is their number, `m_size ≤ m_cap`, `m_cap` is below `2^63` (no block reaches `PTRDIFF_MAX`
elements), and either there is no block (`m_data` null, capacity `0`) or `m_data` is the
start of a live block of exactly `m_cap` slots whose first `m_size` slots hold `xs` in
order, the remaining ones holding no object. -/
structure Valid (m : Mem T) (v : Vector) (xs : List T) : Prop where
  size_eq : v.m_size = xs.length
  size_le : v.m_size ≤ v.m_cap
  cap_lt : v.m_cap < 2 ^ 63
  block : (v.m_data = Ptr.null ∧ v.m_cap = 0) ∨
    (v.m_data.off = 0 ∧
      m.blocks v.m_data.base = some (xs.map some ++ List.replicate (v.m_cap - xs.length) none))

/-- Memory `m` with the node at address `a` replaced by `nd`. -/
def NodeMem.setNode (m : NodeMem T) (a : Nat) (nd : ListNode T) : NodeMem T :=
  { m with nodes := fun x => if x = a then some nd else m.nodes x }

/-- The nodes at the addresses `ns` hold the values `xs` and are linked in this order: the
first one has `prev` before it, the last one has `stop` after it. -/
def Chain (m : NodeMem T) : Nat → List Nat → List T → Nat → Prop
  | _, [], [], _ => True
  | prev, n :: ns, x :: xs, stop =>
    m.nodes n = some { m_next := ns.head?.getD stop, m_prev := prev, m_value := some x } ∧
      Chain m n ns xs stop
  | _, _, _, _ => False

/-- The list `l` is a closed ring in memory `m`, made of the sentinel and of the element
nodes at the pairwise distinct non-null addresses `ns`, which hold `xs` in iteration
order; `m_size` is their number.  With no element the sentinel is linked to itself. -/
structure Ring (m : NodeMem T) (l : LinkedList) (ns : List Nat) (xs : List T) : Prop where
  size_eq : l.m_size = xs.length
  sentinel : m.nodes l.m_dummy
    = some { m_next := ns.head?.getD l.m_dummy, m_prev := ns.getLast?.getD l.m_dummy,
             m_value := none }
  chain : Chain m l.m_dummy ns xs l.m_dummy
  nodup : (l.m_dummy :: ns).Nodup
  nonnull : 0 ∉ l.m_dummy :: ns

/-- Well-formed node allocator state: nothing lives at the null address, the addresses
from `fresh` on are unused, and addresses are below `2^64`. -/
structure NodeMem.WF (m : NodeMem T) : Prop where
  null_free : m.nodes 0 = none
  fresh_pos : 0 < m.fresh
  fresh_free : ∀ a, m.fresh ≤ a → m.nodes a = none
  fresh_lt : m.fresh < 2 ^ 64

/-- The node allocator can hand out one more node. -/
def NodeMem.can_alloc (m : NodeMem T) : Prop := 1 ≤ m.avail ∧ m.fresh + 1 < 2 ^ 64

/-- The node `nd` found at address `a`, with its `m_next` link set to `np` when `a` is `p`
and its `m_prev` link set to `nq` when `a` is `q`: what re-linking the neighbours `p` and
`q` of a position does to the node at `a`. -/
def redirect (a p q np nq : Nat) (nd : ListNode T) : ListNode T :=
  { m_next := if a = p then np else nd.m_next
    m_prev := if a = q then nq else nd.m_prev
    m_value := nd.m_value }

/-- Memory `m` with block `b` replaced by the slots `s`, after `c` more constructions and
`d` more destructions. -/
def Mem.put (m : Mem T) (b : Nat) (s : List (Option T)) (c d : Nat) : Mem T :=
  { m with
    blocks := fun a => if a = b then some s else m.blocks a
    constructed := m.constructed + c
    destroyed := m.destroyed + d }

/-! ## Concrete states used to instantiate the theorems -/

/-- A memory whose only block holds the elements `1, 2` in exactly two slots. -/
def mem12 : Mem Nat :=
  { blocks := fun a => if a = 1 then some [some 1, some 2] else none
    fresh := 2, avail := 100, constructed := 2, destroyed := 0 }

/-- The vector `[1, 2]` of capacity `2` living in `mem12`. -/
def vec12 : Vector := { m_data := ⟨1, 0⟩, m_size := 2, m_cap := 2 }

/-- A memory with no block at all. -/
def mem_empty : Mem Nat :=
  { blocks := fun _ => none, fresh := 1, avail := 100, constructed := 0, destroyed := 0 }

/-- A memory whose only block holds the elements `1, 2, 3` in exactly three slots. -/
def mem123 : Mem Nat :=
  { blocks := fun a => if a = 1 then some [some 1, some 2, some 3] else none
    fresh := 2, avail := 100, constructed := 3, destroyed := 0 }

/-- The vector `[1, 2, 3]` of capacity `3` living in `mem123`. -/
def vec123 : Vector := { m_data := ⟨1, 0⟩, m_size := 3, m_cap := 3 }

/-- A node memory holding one list: the sentinel at address `1`, then the nodes at `2` and
`3` with the elements `1` and `2`. -/
def nmem12 : NodeMem Nat :=
  { nodes := fun a =>
      if a = 1 then some { m_next := 2, m_prev := 3, m_value := none }
      else if a = 2 then some { m_next := 3, m_prev := 1, m_value := some 1 }
      else if a = 3 then some { m_next := 1, m_prev := 2, m_value := some 2 }
      else none
    fresh := 4, avail := 100, constructed := 2, destroyed := 0 }

/-- The list `[1, 2]` living in `nmem12`. -/
def list12 : LinkedList := { m_dummy := 1, m_size := 2 }

/-- A node memory with no node at all. -/
def nmem_empty : NodeMem Nat :=
  { nodes := fun _ => none, fresh := 2, avail := 100, constructed := 0, destroyed := 0 }

/-- The list built by `List()` with its sentinel at address `1`. -/
def list_nil : LinkedList := (LinkedList.ctor 1 nmem_empty).1

/-- The memory after `List()` has linked the sentinel at address `1` to itself. -/
def nmem_nil : NodeMem Nat := (LinkedList.ctor 1 nmem_empty).2

/-- The calls `push_back(1); push_front(0); push_back(2)` on the list built by `List()`. -/
def list012 : LRes Nat Unit :=
  ((LinkedList.push_back 1 list_nil nmem_nil).andThen (LinkedList.push_front 0)).andThen
    (LinkedList.push_back 2)

/-- A memory whose only block has four slots, the first two holding `1, 2`. -/
def mem12_cap4 : Mem Nat :=
  { blocks := fun a => if a = 1 then some [some 1, some 2, none, none] else none
    fresh := 2, avail := 100, constructed := 2, destroyed := 0 }

/-- The vector `[1, 2]` of capacity `4` living in `mem12_cap4`. -/
def vec12_cap4 : Vector := { m_data := ⟨1, 0⟩, m_size := 2, m_cap := 4 }

/-- The memory `mem12_cap4` with an allocator that has no slot left. -/
def mem12_cap4_full : Mem Nat := { mem12_cap4 with avail := 0 }

/-- The node memory `nmem12` with an allocator that has no node left. -/
def nmem12_full : NodeMem Nat := { nmem12 with avail := 0 }

/-- The moves of `int`, a trivially copyable type: the value stays. -/
instance movable_nat : Movable Nat := ⟨fun x => x, fun x => x⟩

/-- The moves of `std::string` in the usual implementations: the source of a move, and a
string move-assigned to itself, is left empty. -/
instance movable_string : Movable String := ⟨fun _ => "", fun _ => ""⟩

/-- A memory whose only block holds the strings `a, b, c` in exactly three slots. -/
def mem_abc : Mem String :=
  { blocks := fun a => if a = 1 then some [some "a", some "b", some "c"] else none
    fresh := 2, avail := 100, constructed := 3, destroyed := 0 }

/-- The vector `[a, b, c]` of strings, of capacity `3`, living in `mem_abc`. -/
def vec_abc : Vector := { m_data := ⟨1, 0⟩, m_size := 3, m_cap := 3 }

/-! ## Memory lemmas -/

theorem usize_of_lt {x : Nat} (h : x < 2 ^ 64) : usize x = x := by
  unfold usize; omega

theorem usub_of_le {a b : Nat} (h : b ≤ a) (ha : a < 2 ^ 64) : usub a b = a - b := by
  unfold usub; omega

theorem mem_eq {m m' : Mem T} (h1 : ∀ a, m.blocks a = m'.blocks a) (h2 : m.fresh = m'.fresh)
    (h3 : m.avail = m'.avail) (h4 : m.constructed = m'.constructed)
    (h5 : m.destroyed = m'.destroyed) : m = m' := by
  cases m; cases m'
  simp only [Mem.mk.injEq] at *
  exact ⟨funext h1, h2, h3, h4, h5⟩

theorem put_same (m : Mem T) (b : Nat) (s : List (Option T)) (c d : Nat) :
    (m.put b s c d).blocks b = some s := by
  simp [Mem.put]

theorem put_other (m : Mem T) {a b : Nat} (s : List (Option T)) (c d : Nat) (h : a ≠ b) :
    (m.put b s c d).blocks a = m.blocks a := by
  simp [Mem.put, h]

theorem put_put (m : Mem T) (b : Nat) (s s' : List (Option T)) (c d c' d' : Nat) :
    (m.put b s c d).put b s' c' d' = m.put b s' (c + c') (d + d') := by
  apply mem_eq
  · intro a; simp only [Mem.put]; split_ifs <;> rfl
  · rfl
  · rfl
  · simp only [Mem.put]; omega
  · simp only [Mem.put]; omega

theorem put_self (m : Mem T) (b : Nat) (s : List (Option T)) (h : m.blocks b = some s) :
    m.put b s 0 0 = m := by
  apply mem_eq
  · intro a; simp only [Mem.put]; split_ifs with h1
    · rw [h1, h]
    · rfl
  all_goals rfl

theorem put_wf {m : Mem T} {b : Nat} {s0 : List (Option T)} (s : List (Option T)) (c d : Nat)
    (hwf : m.WF) (hb : m.blocks b = some s0) : (m.put b s c d).WF := by
  have hb0 : (0 : Nat) ≠ b := by
    intro h; rw [← h, hwf.null_free] at hb; cases hb
  refine ⟨?_, hwf.fresh_pos, ?_⟩
  · simp only [Mem.put, hb0, if_false]; exact hwf.null_free
  · intro a h
    simp only [Mem.put] at h ⊢
    have hbf : a ≠ b := by
      intro h2; rw [← h2, hwf.fresh_free a h] at hb; cases hb
    simp only [hbf, if_false]; exact hwf.fresh_free a h

theorem get_mid {α : Type} (A B : List α) (a : α) : (A ++ a :: B)[A.length]? = some a := by
  rw [List.getElem?_append_right (Nat.le_refl _)]; simp

theorem set_mid {α : Type} (A B : List α) (a b : α) :
    (A ++ a :: B).set A.length b = A ++ b :: B := by
  simp

theorem store_eq_put {m : Mem T} {p : Ptr} {s : List (Option T)} (x : Option T)
    (h : m.blocks p.base = some s) : m.store p x = m.put p.base (s.set p.off x) 0 0 := by
  apply mem_eq
  · intro a; simp only [Mem.store, Mem.put]; split_ifs with h1
    · rw [h1, h]; rfl
    · rfl
  all_goals rfl

theorem construct_at_eq {m : Mem T} {p : Ptr} {s : List (Option T)} (x : T)
    (h : m.blocks p.base = some s) (hlt : p.off < s.length) :
    construct_at p x m = some (m.put p.base (s.set p.off (some x)) 1 0) := by
  have hs : m.slot p = some (s.get ⟨p.off, hlt⟩) := by
    simp [Mem.slot, h, List.getElem?_eq_getElem hlt]
  simp only [construct_at, hs, store_eq_put _ h]
  congr 1

theorem load_eq {m : Mem T} {p : Ptr} {s : List (Option T)} {x : T}
    (h : m.blocks p.base = some s) (hx : s[p.off]? = some (some x)) : load p m = some x := by
  simp [load, Mem.slot, h, hx]

theorem destroy_at_eq {m : Mem T} {p : Ptr} {s : List (Option T)} {x : T}
    (h : m.blocks p.base = some s) (hx : s[p.off]? = some (some x)) :
    destroy_at p m = some (m.put p.base (s.set p.off none) 0 1) := by
  have hs : m.slot p = some (some x) := by simp [Mem.slot, h, hx]
  simp only [destroy_at, hs, store_eq_put _ h]
  congr 1

theorem move_assign_eq [Movable T] {m : Mem T} {b i j : Nat} {s : List (Option T)}
    {x y : T} (hb : m.blocks b = some s) (hy : s[i]? = some (some y))
    (hx : s[j]? = some (some x)) (hne : i ≠ j) :
    move_assign ⟨b, i⟩ ⟨b, j⟩ m
      = some (m.put b ((s.set j (some (Movable.moved_from x))).set i (some x)) 0 0) := by
  have hs : m.slot ⟨b, i⟩ = some (some y) := by simp [Mem.slot, hb, hy]
  have hpq : (Ptr.mk b i) ≠ Ptr.mk b j := fun h => hne (Ptr.mk.inj h).2
  have h1 := store_eq_put (p := ⟨b, j⟩) (some (Movable.moved_from x)) hb
  simp only at h1
  have h2 := store_eq_put (p := ⟨b, i⟩) (some x)
    (put_same m b (s.set j (some (Movable.moved_from x))) 0 0)
  simp only at h2
  simp only [move_assign, load_eq (p := ⟨b, j⟩) hb hx, hs, hpq, if_false, h1, h2, put_put]

theorem move_assign_self [Movable T] {m : Mem T} {b i : Nat} {s : List (Option T)} {x : T}
    (hb : m.blocks b = some s) (hx : s[i]? = some (some x)) :
    move_assign ⟨b, i⟩ ⟨b, i⟩ m
      = some (m.put b (s.set i (some (Movable.self_move x))) 0 0) := by
  have hs : m.slot ⟨b, i⟩ = some (some x) := by simp [Mem.slot, hb, hx]
  have h1 := store_eq_put (p := ⟨b, i⟩) (some (Movable.self_move x)) hb
  simp only at h1
  simp only [move_assign, load_eq (p := ⟨b, i⟩) hb hx, hs, if_true, h1]

/-! ## The relocation loop of `reserve` -/

theorem relocate_two {m : Mem T} {b f i : Nat} {sb sf : List (Option T)} {x : T} (hne : b ≠ f)
    (hb : m.blocks b = some sb) (hf : m.blocks f = some sf) (hx : sb[i]? = some (some x))
    (hlt : i < sf.length) :
    relocate ⟨f, i⟩ ⟨b, i⟩ m
      = some ((m.put f (sf.set i (some x)) 1 0).put b (sb.set i none) 0 1) := by
  have h1 : load ⟨b, i⟩ m = some x := load_eq (p := ⟨b, i⟩) hb hx
  have h2 := construct_at_eq (p := ⟨f, i⟩) x hf hlt
  have hb1 : (m.put f (sf.set i (some x)) 1 0).blocks (Ptr.mk b i).base = some sb := by
    rw [put_other _ _ _ _ hne]; exact hb
  have h3 := destroy_at_eq (p := ⟨b, i⟩) hb1 hx
  simp only [relocate, move_construct, h1, h2, h3]

theorem reserve_loop_eq {b f : Nat} (hne : b ≠ f) (todo : List T) :
    ∀ (P R Q S : List (Option T)) (m : Mem T),
      m.blocks b = some (P ++ (todo.map some ++ R)) →
      m.blocks f = some (Q ++ (List.replicate todo.length none ++ S)) →
      Q.length = P.length →
      forUp (fun i mm => relocate (Ptr.add ⟨f, 0⟩ i) (Ptr.add ⟨b, 0⟩ i) mm) P.length
          todo.length m
        = some ((m.put f (Q ++ (todo.map some ++ S)) todo.length 0).put b
            (P ++ (List.replicate todo.length none ++ R)) 0 todo.length) := by
  induction todo with
  | nil =>
    intro P R Q S m hb hf _
    simp only [List.map_nil, List.nil_append, List.length_nil, List.replicate_zero] at hb hf ⊢
    simp only [forUp]
    rw [put_self m f _ hf, put_self m b _ hb]
  | cons x t ih =>
    intro P R Q S m hb hf hlen
    simp only [List.length_cons, List.map_cons, List.replicate_succ, List.cons_append]
      at hb hf ⊢
    have hx : (P ++ some x :: (List.map some t ++ R))[P.length]? = some (some x) :=
      get_mid _ _ _
    have hlt : P.length < (Q ++ none :: (List.replicate t.length none ++ S)).length := by
      simp only [List.length_append, List.length_cons, List.length_replicate]; omega
    have hstep := relocate_two (i := P.length) hne hb hf hx hlt
    simp only [forUp, Ptr.add, Nat.zero_add, hstep]
    have hb1 : ((m.put f ((Q ++ none :: (List.replicate t.length none ++ S)).set P.length
        (some x)) 1 0).put b ((P ++ some x :: (List.map some t ++ R)).set P.length none)
        0 1).blocks b = some ((P ++ [none]) ++ (t.map some ++ R)) := by
      rw [put_same]
      simp only [set_mid, List.append_assoc, List.singleton_append]
    have hf1 : ((m.put f ((Q ++ none :: (List.replicate t.length none ++ S)).set P.length
        (some x)) 1 0).put b ((P ++ some x :: (List.map some t ++ R)).set P.length none)
        0 1).blocks f = some ((Q ++ [some x]) ++ (List.replicate t.length none ++ S)) := by
      rw [put_other _ _ _ _ (Ne.symm hne), put_same, ← hlen]
      simp only [set_mid, List.append_assoc, List.singleton_append]
    have hlen1 : (Q ++ [some x]).length = (P ++ [none]).length := by
      simp only [List.length_append, List.length_singleton]; omega
    have := ih (P ++ [none]) R (Q ++ [some x]) S _ hb1 hf1 hlen1
    simp only [List.length_append, List.length_singleton, Ptr.add, Nat.zero_add] at this
    rw [this]
    congr 1
    apply mem_eq
    · intro a
      simp only [Mem.put, List.append_assoc, List.singleton_append]
      split_ifs <;> rfl
    · rfl
    · rfl
    · simp only [Mem.put]; omega
    · simp only [Mem.put]; omega

/-! ## Reading a valid vector -/

theorem read_range_eq {m : Mem T} {b : Nat} (ys : List T) :
    ∀ (P R : List (Option T)), m.blocks b = some (P ++ (ys.map some ++ R)) →
      read_range m ⟨b, 0⟩ P.length ys.length = some ys := by
  induction ys with
  | nil => intro P R _; rfl
  | cons y t ih =>
    intro P R hb
    simp only [List.map_cons, List.cons_append] at hb
    have h1 : load (Ptr.add ⟨b, 0⟩ P.length) m = some y :=
      load_eq (p := ⟨b, 0 + P.length⟩) hb (by simp only [Nat.zero_add]; exact get_mid _ _ _)
    have h2 := ih (P ++ [some y]) R (by simpa using hb)
    simp only [List.length_append, List.length_singleton] at h2
    simp only [List.length_cons, read_range, h1, h2]

theorem Valid.toList_eq {m : Mem T} {v : Vector} {xs : List T} (hv : Valid m v xs) :
    v.toList m = some xs := by
  rcases hv.block with ⟨_, hc⟩ | ⟨hoff, hblk⟩
  · have h0 : xs.length = 0 := by have := hv.size_eq; have := hv.size_le; omega
    have hx : xs = [] := List.length_eq_zero.mp h0
    simp only [Vector.toList, hv.size_eq, hx, List.length_nil, read_range]
  · have hp : v.m_data = ⟨v.m_data.base, 0⟩ := by
      cases h : v.m_data; simp only [h] at hoff; simp only [hoff]
    have := read_range_eq (m := m) (b := v.m_data.base) xs [] _ (by simpa using hblk)
    simp only [Vector.toList, hv.size_eq]
    rw [hp]; simpa using this

/-! ## `reserve` -/

theorem ptr_eta {p : Ptr} (h : p.off = 0) : p = ⟨p.base, 0⟩ := by
  cases p; simp only at h; simp only [h]

theorem allocate_eq {m : Mem T} {n : Nat} (h : m.can_alloc n) :
    allocate n m = some (⟨m.fresh, 0⟩,
      { m with
        blocks := fun a => if a = m.fresh then some (List.replicate n none) else m.blocks a
        fresh := m.fresh + 1
        avail := m.avail - n }) := by
  unfold Mem.can_alloc at h
  simp only [allocate, h, and_self, if_true]

/-- Growth path of `reserve`: the elements are relocated into a fresh block of
`max n (2 * m_cap)` slots, the old block (if any) is released, all other blocks are left
alone. -/
theorem reserve_grow {m : Mem T} {v : Vector} {xs : List T} {n : Nat} (hwf : m.WF)
    (hv : Valid m v xs) (hn : v.m_cap < n) (ha : m.can_alloc (max n (2 * v.m_cap))) :
    ∃ m2, reserve n v m
        = Res.ok () { v with m_data := ⟨m.fresh, 0⟩, m_cap := max n (2 * v.m_cap) } m2 ∧
      Valid m2 { v with m_data := ⟨m.fresh, 0⟩, m_cap := max n (2 * v.m_cap) } xs ∧
      m2.WF ∧ m2.fresh = m.fresh + 1 ∧
      (∀ a, a ≠ m.fresh → a ≠ v.m_data.base → m2.blocks a = m.blocks a) := by
  have hcap := hv.cap_lt
  have hsz := hv.size_eq
  have hle := hv.size_le
  have hu : usize (v.m_cap * 2) = 2 * v.m_cap := by rw [usize_of_lt (by omega)]; omega
  have hnot : ¬ n ≤ v.m_cap := by omega
  have hvalid : ∀ (m2 : Mem T) (sz : Nat), sz = xs.length →
      m2.blocks m.fresh
        = some (xs.map some ++ List.replicate (max n (2 * v.m_cap) - xs.length) none) →
      Valid m2 { m_data := ⟨m.fresh, 0⟩, m_size := sz, m_cap := max n (2 * v.m_cap) } xs := by
    intro m2 sz hs h
    exact ⟨hs, by simp only; omega, ha.2, Or.inr ⟨rfl, h⟩⟩
  simp only [reserve, hnot, if_false, hu, allocate_eq ha, Nat.sub_zero]
  rcases hv.block with ⟨hnull, hc⟩ | ⟨hoff, hblk⟩
  · have h0 : xs.length = 0 := by omega
    have hx : xs = [] := List.length_eq_zero.mp h0
    simp only [hsz, h0, forUp, hnull, ne_eq, not_true_eq_false, if_false]
    refine ⟨_, rfl, ?_, ⟨?_, ?_, ?_⟩, rfl, ?_⟩
    · apply hvalid _ _ h0.symm; simp [hx]
    · have := hwf.fresh_pos
      have h1 : (0 : Nat) ≠ m.fresh := by omega
      simp only [h1, if_false]; exact hwf.null_free
    · simp only; omega
    · intro a h
      have h1 : a ≠ m.fresh := by simp only at h; omega
      simp only [h1, if_false]; apply hwf.fresh_free; simp only at h; omega
    · intro a h1 _; simp only [h1, if_false]
  · have hbf : v.m_data.base ≠ m.fresh := by
      intro h; rw [h, hwf.fresh_free _ (Nat.le_refl _)] at hblk; cases hblk
    have hb0 : v.m_data.base ≠ 0 := by
      intro h; rw [h, hwf.null_free] at hblk; cases hblk
    have hnn : v.m_data ≠ Ptr.null := by
      intro h; apply hb0; rw [h]; rfl
    have hsplit : List.replicate (max n (2 * v.m_cap)) (none : Option T)
        = [] ++ (List.replicate xs.length none
            ++ List.replicate (max n (2 * v.m_cap) - xs.length) none) := by
      rw [List.nil_append, List.append_replicate_replicate]
      congr 1; omega
    have hloop := reserve_loop_eq (T := T) hbf xs [] (List.replicate (v.m_cap - xs.length) none)
      [] (List.replicate (max n (2 * v.m_cap) - xs.length) none)
      { m with
        blocks := fun a =>
          if a = m.fresh then some (List.replicate (max n (2 * v.m_cap)) none) else m.blocks a
        fresh := m.fresh + 1
        avail := m.avail - max n (2 * v.m_cap) }
      (by simp only [hbf, if_false, List.nil_append]; exact hblk)
      (by simp only [if_true]; rw [hsplit]) rfl
    rw [ptr_eta hoff]
    simp only [List.length_nil, Ptr.add, Nat.zero_add] at hloop
    simp only [hsz, Ptr.add, Nat.zero_add, hloop]
    have hne2 : (Ptr.mk v.m_data.base 0) ≠ Ptr.null := by
      intro h; apply hb0; simpa [Ptr.null] using h
    simp only [ne_eq, hne2, not_false_eq_true, if_true, deallocate, put_same, List.nil_append,
      List.length_append, List.length_replicate, true_and]
    have hlen : xs.length + (v.m_cap - xs.length) = v.m_cap := by omega
    simp only [hlen, if_true]
    refine ⟨_, rfl, ?_, ⟨?_, ?_, ?_⟩, rfl, ?_⟩
    · apply hvalid _ _ rfl
      simp only [Mem.put, Ne.symm hbf, if_false, if_true]
    · have := hwf.fresh_pos
      have h1 : (0 : Nat) ≠ m.fresh := by omega
      simp only [Mem.put, Ne.symm hb0, h1, if_false]; exact hwf.null_free
    · simp only [Mem.put]; omega
    · intro a h
      simp only [Mem.put] at h ⊢
      have h1 : a ≠ m.fresh := by omega
      split_ifs
      · rfl
      · apply hwf.fresh_free; omega
    · intro a h1 h2
      simp only [Mem.put, h1, h2, if_false]

/-! ## `push_back` and `pop_back` -/

theorem Valid.has_block {m : Mem T} {d : Ptr} {sz cap : Nat} {xs : List T}
    (hv : Valid m ⟨d, sz, cap⟩ xs) (hc : 0 < cap) :
    ∃ b, d = ⟨b, 0⟩ ∧
      m.blocks b = some (xs.map some ++ List.replicate (cap - xs.length) none) := by
  rcases hv.block with ⟨_, h0⟩ | ⟨hoff, hblk⟩
  · simp only at h0; omega
  · exact ⟨d.base, ptr_eta hoff, hblk⟩

theorem get_at {α : Type} {A B : List α} {a : α} {i : Nat} (h : A.length = i) :
    (A ++ a :: B)[i]? = some a := by
  rw [← h]; exact get_mid _ _ _

theorem set_at {α : Type} {A B : List α} {a : α} {i : Nat} (b : α) (h : A.length = i) :
    (A ++ a :: B).set i b = A ++ b :: B := by
  rw [← h]; exact set_mid _ _ _ _

theorem forUp_congr {body body2 : Nat → Mem T → Option (Mem T)} (k : Nat) :
    ∀ (i : Nat) (m : Mem T), (∀ j, i ≤ j → j < i + k → body j = body2 j) →
      forUp body i k m = forUp body2 i k m := by
  induction k with
  | zero => intro i m _; rfl
  | succ k ih =>
    intro i m h
    simp only [forUp, h i (Nat.le_refl _) (by omega)]
    cases body2 i m with
    | none => rfl
    | some m1 => exact ih (i + 1) m1 (fun j h1 h2 => h j (by omega) (by omega))

theorem relocate_same {m : Mem T} {b dst src : Nat} {s : List (Option T)} {x : T}
    (hb : m.blocks b = some s) (hx : s[src]? = some (some x)) (hlt : dst < s.length)
    (hne : dst ≠ src) :
    relocate ⟨b, dst⟩ ⟨b, src⟩ m
      = some (m.put b ((s.set dst (some x)).set src none) 1 1) := by
  have h1 : load ⟨b, src⟩ m = some x := load_eq (p := ⟨b, src⟩) hb hx
  have h2 := construct_at_eq (p := ⟨b, dst⟩) x hb hlt
  have hx2 : (s.set dst (some x))[src]? = some (some x) := by
    rw [List.getElem?_set_ne hne]; exact hx
  have h3 := destroy_at_eq (p := ⟨b, src⟩) (put_same m b (s.set dst (some x)) 1 0) hx2
  simp only [relocate, move_construct, h1, h2, h3, put_put]

/-- The descending shift of `insert`: the elements `mid`, followed by a gap of `g + 1`
unconstructed slots, end up after the gap. -/
theorem shift_right_eq {b : Nat} (g : Nat) (mid : List T) :
    ∀ (P R : List (Option T)) (m : Mem T),
      m.blocks b = some (P ++ (mid.map some ++ (List.replicate (g + 1) none ++ R))) →
      forDown (fun i mm => relocate ⟨b, i + g⟩ ⟨b, i - 1⟩ mm) (P.length + mid.length)
          mid.length m
        = some (m.put b (P ++ (List.replicate (g + 1) none ++ (mid.map some ++ R)))
            mid.length mid.length) := by
  induction mid using List.reverseRecOn with
  | nil =>
    intro P R m hb
    simp only [List.map_nil, List.nil_append, List.length_nil, forDown] at hb ⊢
    rw [put_self m b _ hb]
  | append_singleton mid x ih =>
    intro P R m hb
    have hk : (mid ++ [x]).length = mid.length + 1 := by
      simp only [List.length_append, List.length_singleton]
    rw [hk]
    have hs1 : P ++ ((mid ++ [x]).map some ++ (List.replicate (g + 1) none ++ R))
        = (P ++ mid.map some) ++ some x :: (List.replicate (g + 1) none ++ R) := by
      simp only [List.map_append, List.map_cons, List.map_nil, List.append_assoc,
        List.singleton_append]
    have hs2 : (P ++ mid.map some) ++ some x :: (List.replicate (g + 1) none ++ R)
        = (P ++ (mid.map some ++ (some x :: List.replicate g none))) ++ none :: R := by
      rw [List.replicate_succ']
      simp only [List.append_assoc, List.singleton_append, List.cons_append, List.nil_append]
    have hs3 : (P ++ (mid.map some ++ (some x :: List.replicate g none))) ++ some x :: R
        = (P ++ mid.map some) ++ some x :: (List.replicate g none ++ some x :: R) := by
      simp only [List.append_assoc, List.cons_append]
    have hl1 : (P ++ mid.map some).length = P.length + (mid.length + 1) - 1 := by
      simp only [List.length_append, List.length_map]; omega
    have hl2 : (P ++ (mid.map some ++ (some x :: List.replicate g none))).length
        = P.length + (mid.length + 1) + g := by
      simp only [List.length_append, List.length_map, List.length_cons, List.length_replicate]
      omega
    rw [hs1] at hb
    have hx := get_at (B := List.replicate (g + 1) none ++ R) (a := some x) hl1
    have hlt : P.length + (mid.length + 1) + g
        < ((P ++ mid.map some) ++ some x :: (List.replicate (g + 1) none ++ R)).length := by
      simp only [List.length_append, List.length_map, List.length_replicate, List.length_cons]
      omega
    have hstep := relocate_same hb hx hlt (by omega)
    rw [hs2, set_at _ hl2, hs3, set_at _ hl1] at hstep
    have hb1 : (m.put b ((P ++ mid.map some) ++ none :: (List.replicate g none ++ some x :: R))
        1 1).blocks b
        = some (P ++ (mid.map some ++ (List.replicate (g + 1) none ++ some x :: R))) := by
      rw [put_same, List.replicate_succ]
      simp only [List.append_assoc, List.cons_append]
    have hrec := ih P (some x :: R) _ hb1
    have hi2 : P.length + (mid.length + 1) - 1 = P.length + mid.length := by omega
    simp only [forDown, hstep]
    rw [hi2, hrec, put_put]
    congr 2
    · simp only [List.map_append, List.map_cons, List.map_nil, List.append_assoc,
        List.singleton_append]
    · omega
    · omega

/-- An argument that does not refer into the block `b` reads the same in every memory in
which the other live blocks are as in `m`. -/
theorem read_frame {val : Arg T} {m m2 : Mem T} {x : T} {b : Nat}
    (hx : val.read m = some x) (hout : ∀ p, val = Arg.elem p → p.base ≠ b)
    (hfr : ∀ a, a ≠ b → m.blocks a ≠ none → m2.blocks a = m.blocks a) :
    val.read m2 = some x := by
  cases val with
  | obj y => exact hx
  | elem p =>
    have hne : m.blocks p.base ≠ none := by
      intro h
      simp only [Arg.read, load, Mem.slot, h] at hx
      cases hx
    have h2 := hfr p.base (hout p rfl) hne
    simp only [Arg.read, load, Mem.slot, h2] at hx ⊢
    exact hx

theorem diff_add (p : Ptr) (k : Nat) : (p.add k).diff p = some k := by
  simp [Ptr.diff, Ptr.add]

theorem grow_for_valid {m : Mem T} {v : Vector} {xs : List T} (n : Nat) (hwf : m.WF)
    (hv : Valid m v xs)
    (ha : v.m_cap < v.m_size + n → m.can_alloc (max (v.m_size + n) (2 * v.m_cap))) :
    ∃ v1 m1, grow_for n v m = Res.ok () v1 m1 ∧ Valid m1 v1 xs ∧ m1.WF ∧
      v.m_size + n ≤ v1.m_cap ∧ v1.m_size = v.m_size ∧
      (v.m_size + n ≤ v.m_cap → v1 = v ∧ m1 = m) ∧
      (∀ a, a ≠ v.m_data.base → m.blocks a ≠ none → m1.blocks a = m.blocks a) ∧
      (v1.m_data.base = v.m_data.base ∨ m.blocks v1.m_data.base = none) := by
  have hcap := hv.cap_lt
  have hle := hv.size_le
  by_cases hg : v.m_cap < v.m_size + n
  · have hc := ha hg
    have hlt : v.m_size + n < 2 ^ 64 := by
      have := hc.2
      have : v.m_size + n ≤ max (v.m_size + n) (2 * v.m_cap) := Nat.le_max_left _ _
      omega
    obtain ⟨m2, hr, hv2, hwf2, _, hfr⟩ := reserve_grow hwf hv hg hc
    refine ⟨_, m2, ?_, hv2, hwf2, ?_, rfl, ?_, ?_,
      Or.inr (hwf.fresh_free _ (Nat.le_refl _))⟩
    · simp only [grow_for, usize_of_lt hlt, ge_iff_le, Nat.le_of_lt hg, if_true, hr]
    · exact Nat.le_max_left _ _
    · intro h; omega
    · intro a h1 h2
      exact hfr a (fun e => h2 (by rw [e]; exact hwf.fresh_free _ (Nat.le_refl _))) h1
  · have hlt : v.m_size + n < 2 ^ 64 := by omega
    refine ⟨v, m, ?_, hv, hwf, by omega, rfl, fun _ => ⟨rfl, rfl⟩, fun _ _ _ => rfl,
      Or.inl rfl⟩
    simp only [grow_for, usize_of_lt hlt, ge_iff_le]
    split_ifs with h1
    · simp only [reserve, Nat.le_of_not_lt hg, if_true]
    · rfl

/-- The state of the block after the descending shift of `insert`: the elements from index
`k` on have moved up by `g + 1` slots. -/
theorem shift_block_eq {m : Mem T} {b sz cap : Nat} {xs : List T} (g k : Nat)
    (hv : Valid m ⟨⟨b, 0⟩, sz, cap⟩ xs) (hk : k ≤ sz) (hroom : sz + (g + 1) ≤ cap) :
    forDown (fun i mm => relocate ⟨b, i + g⟩ ⟨b, i - 1⟩ mm) sz (sz - k) m
      = some (m.put b ((xs.take k).map some ++ (List.replicate (g + 1) none
          ++ ((xs.drop k).map some ++ List.replicate (cap - (sz + (g + 1))) none)))
          (sz - k) (sz - k)) := by
  have hsz := hv.size_eq
  simp only at hsz
  obtain ⟨b2, hp, hblk⟩ := hv.has_block (by omega)
  simp only [Ptr.mk.injEq, and_true] at hp
  subst hp
  have hsplit : xs.map some ++ List.replicate (cap - xs.length) none
      = (xs.take k).map some ++ ((xs.drop k).map some ++ (List.replicate (g + 1) none
          ++ List.replicate (cap - (sz + (g + 1))) none)) := by
    rw [List.append_replicate_replicate, ← List.append_assoc, ← List.map_append,
      List.take_append_drop]
    congr 2; omega
  rw [hsplit] at hblk
  have h := shift_right_eq g (xs.drop k) _ _ m hblk
  have hl1 : (List.map some (List.take k xs)).length + (List.drop k xs).length = sz := by
    simp only [List.length_map, List.length_take, List.length_drop]; omega
  have hl2 : (List.drop k xs).length = sz - k := by
    simp only [List.length_drop]; omega
  rw [hl1, hl2] at h
  exact h

/-- The state `insert` reaches before its last construction: the block of the vector has a
free slot at index `k`, and the other live blocks are untouched. -/
theorem insert_shifted {m : Mem T} {v : Vector} {xs : List T} (k : Nat) (hwf : m.WF)
    (hv : Valid m v xs) (hk : k ≤ xs.length)
    (ha : v.m_cap < v.m_size + 1 → m.can_alloc (max (v.m_size + 1) (2 * v.m_cap))) :
    ∃ (b cap : Nat) (m2 : Mem T),
      (∀ place : Ptr → Mem T → Option (Mem T),
        insert_body place (v.m_data.add k) v m
          = match place ⟨b, k⟩ m2 with
            | some m3 => Res.ok ⟨b, k⟩ ⟨⟨b, 0⟩, v.m_size + 1, cap⟩ m3
            | none => Res.ub) ∧
      m2.blocks b = some ((xs.take k).map some ++ none ::
        ((xs.drop k).map some ++ List.replicate (cap - (v.m_size + 1)) none)) ∧
      m2.WF ∧ v.m_size + 1 ≤ cap ∧ cap < 2 ^ 63 ∧
      (∀ a, a ≠ v.m_data.base → m.blocks a ≠ none → a ≠ b ∧ m2.blocks a = m.blocks a) := by
  obtain ⟨v1, m1, hg, hv1, hwf1, hroom, hs1, _, hfr, hnew⟩ := grow_for_valid 1 hwf hv ha
  have hsz := hv.size_eq
  rcases v1 with ⟨d, sz, cap⟩
  have hcap := hv1.cap_lt
  simp only at hroom hs1 hcap hnew
  subst hs1
  obtain ⟨b, hp, hblk⟩ := hv1.has_block (by omega)
  subst hp
  have hshift := shift_block_eq 0 k hv1 (by omega) (by omega)
  simp only [Nat.zero_add, Nat.add_zero, List.replicate_succ, List.replicate_zero,
    List.cons_append, List.nil_append] at hshift
  refine ⟨b, cap, _, ?_, put_same m1 b _ (v.m_size - k) (v.m_size - k),
    put_wf _ _ _ hwf1 hblk, hroom, hcap, ?_⟩
  · intro place
    simp only [insert_body, diff_add, hg]
    simp only [Ptr.add, Nat.zero_add, hshift,
      usize_of_lt (show v.m_size + 1 < 2 ^ 64 by omega)]
  · intro a h1 h2
    have hab : a ≠ b := by
      rcases hnew with e | e
      · have e3 : b = v.m_data.base := e
        rw [e3]; exact h1
      · intro e2; rw [e2] at h2; exact h2 e
    exact ⟨hab, by rw [put_other _ _ _ _ hab]; exact hfr a h1 h2⟩

/-- The member `insert(it, val)` with a `val` that refers to an object of value `x` outside
the block of the vector. -/
theorem insert_valid {m : Mem T} {v : Vector} {xs : List T} (k : Nat) (val : Arg T) (x : T)
    (hwf : m.WF) (hv : Valid m v xs) (hk : k ≤ xs.length)
    (ha : v.m_cap < v.m_size + 1 → m.can_alloc (max (v.m_size + 1) (2 * v.m_cap)))
    (hx : val.read m = some x) (hout : ∀ p, val = Arg.elem p → p.base ≠ v.m_data.base) :
    ∃ v1 m1, insert (v.m_data.add k) val v m = Res.ok (v1.m_data.add k) v1 m1 ∧
      Valid m1 v1 (xs.take k ++ x :: xs.drop k) ∧ m1.WF ∧ v1.m_size = v.m_size + 1 ∧
      load (v1.m_data.add k) m1 = some x := by
  obtain ⟨b, cap, m2, hbody, hblk2, hwf2, hroom, hcap, hfr⟩ := insert_shifted k hwf hv hk ha
  have hsz := hv.size_eq
  have hrd : val.read m2 = some x := read_frame hx hout (fun a h1 h2 => (hfr a h1 h2).2)
  have hlk : (List.map some (List.take k xs)).length = k := by
    simp only [List.length_map, List.length_take]; omega
  have hc := construct_at_eq (p := ⟨b, k⟩) x hblk2 (by
    simp only [List.length_append, List.length_map, List.length_take, List.length_drop,
      List.length_replicate, List.length_cons]; omega)
  simp only at hc
  rw [set_at _ hlk] at hc
  refine ⟨⟨⟨b, 0⟩, v.m_size + 1, cap⟩, (m2.put b (List.map some (List.take k xs) ++ some x ::
        (List.map some (List.drop k xs) ++ List.replicate (cap - (v.m_size + 1)) none)) 1 0),
    ?_, ⟨?_, hroom, hcap, Or.inr ⟨rfl, ?_⟩⟩, put_wf _ 1 0 hwf2 hblk2, rfl, ?_⟩
  · rw [insert, hbody]
    simp only [construct_from, hrd, hc, Ptr.add, Nat.zero_add]
  · simp only [List.length_append, List.length_cons, List.length_take, List.length_drop]
    omega
  · simp only [put_same, List.map_append, List.map_cons, List.append_assoc,
      List.cons_append, List.length_append, List.length_cons, List.length_take,
      List.length_drop]
    congr 5; omega
  · exact load_eq (p := ⟨b, 0 + k⟩) (put_same _ _ _ _ _) (by
      simp only [Nat.zero_add]; exact get_at hlk)

/-- The ascending shift of `erase`: the elements `todo` move down over the `g.length`
elements in front of them, `g` not being empty; the slots they leave stay constructed, in
the moved-from state. -/
theorem shift_left_eq [Movable T] {b : Nat} (todo : List T) :
    ∀ (P R : List (Option T)) (g : List T) (m : Mem T), g ≠ [] →
      m.blocks b = some (P ++ (g.map some ++ (todo.map some ++ R))) →
      ∃ g2 : List T, g2.length = g.length ∧
        forUp (fun i mm => move_assign ⟨b, i - g.length⟩ ⟨b, i⟩ mm) (P.length + g.length)
            todo.length m
          = some (m.put b (P ++ (todo.map some ++ (g2.map some ++ R))) 0 0) := by
  induction todo with
  | nil =>
    intro P R g m _ hb
    refine ⟨g, rfl, ?_⟩
    simp only [List.map_nil, List.nil_append, List.length_nil, forUp] at hb ⊢
    rw [put_self m b _ hb]
  | cons x t ih =>
    intro P R g m hg hb
    cases g with
    | nil => exact absurd rfl hg
    | cons g0 g1 =>
      have hs1 : P ++ (List.map some (g0 :: g1) ++ (List.map some (x :: t) ++ R))
          = P ++ some g0 :: (g1.map some ++ some x :: (t.map some ++ R)) := by
        simp only [List.map_cons, List.cons_append, List.append_assoc]
      have hs2 : P ++ some g0 :: (g1.map some ++ some x :: (t.map some ++ R))
          = (P ++ some g0 :: g1.map some) ++ some x :: (t.map some ++ R) := by
        simp only [List.append_assoc, List.cons_append]
      have hl2 : (P ++ some g0 :: g1.map some).length = P.length + (g1.length + 1) := by
        simp only [List.length_append, List.length_cons, List.length_map]
      rw [hs1] at hb
      have hdst := get_mid P (List.map some g1 ++ some x :: (List.map some t ++ R)) (some g0)
      have hsrc : (P ++ some g0 :: (g1.map some ++ some x :: (t.map some ++ R)))[
          P.length + (g1.length + 1)]? = some (some x) := by
        rw [hs2]; exact get_at hl2
      have hstep := move_assign_eq (i := P.length) (j := P.length + (g1.length + 1)) hb hdst
        hsrc (by omega)
      have hset : ((P ++ some g0 :: (g1.map some ++ some x :: (t.map some ++ R))).set
            (P.length + (g1.length + 1)) (some (Movable.moved_from x))).set P.length (some x)
          = P ++ some x :: (g1.map some ++ some (Movable.moved_from x)
              :: (t.map some ++ R)) := by
        rw [hs2, set_at _ hl2]
        simp only [List.append_assoc, List.cons_append]
        exact set_mid _ _ _ _
      rw [hset] at hstep
      have hb1 : (m.put b (P ++ some x :: (List.map some g1
            ++ some (Movable.moved_from x) :: (List.map some t ++ R))) 0 0).blocks b
          = some ((P ++ [some x]) ++ (List.map some (g1 ++ [Movable.moved_from x])
              ++ (t.map some ++ R))) := by
        rw [put_same]
        simp only [List.map_append, List.map_cons, List.map_nil, List.append_assoc,
          List.singleton_append, List.cons_append, List.nil_append]
      obtain ⟨g2, hl, hrec⟩ := ih (P ++ [some x]) R (g1 ++ [Movable.moved_from x]) _
        (by simp only [ne_eq, List.append_eq_nil, List.cons_ne_nil, and_false,
          not_false_eq_true]) hb1
      simp only [List.length_append, List.length_singleton] at hl hrec
      refine ⟨g2, by simp only [List.length_cons]; exact hl, ?_⟩
      have hidx : P.length + 1 + (g1.length + 1) = P.length + (g1.length + 1) + 1 := by omega
      rw [hidx] at hrec
      simp only [List.length_cons, forUp, Nat.add_sub_cancel, hstep, hrec, put_put,
        List.append_assoc, List.singleton_append, List.map_cons, List.cons_append,
        List.nil_append]

/-- The destruction loop of `erase(first, last)`. -/
theorem destroy_loop_eq {b : Nat} (W : List T) :
    ∀ (P R : List (Option T)) (m : Mem T),
      m.blocks b = some (P ++ (W.map some ++ R)) →
      forUp (fun i mm => destroy_at ⟨b, i⟩ mm) P.length W.length m
        = some (m.put b (P ++ (List.replicate W.length none ++ R)) 0 W.length) := by
  induction W with
  | nil =>
    intro P R m hb
    simp only [List.map_nil, List.nil_append, List.length_nil, List.replicate_zero, forUp]
      at hb ⊢
    rw [put_self m b _ hb]
  | cons w t ih =>
    intro P R m hb
    simp only [List.map_cons, List.cons_append, List.length_cons, List.replicate_succ] at hb ⊢
    have hd := destroy_at_eq (p := ⟨b, P.length⟩) hb (get_mid _ _ _)
    simp only [set_mid] at hd
    have hb1 : (m.put b (P ++ none :: (List.map some t ++ R)) 0 1).blocks b
        = some ((P ++ [none]) ++ (t.map some ++ R)) := by
      rw [put_same]; simp only [List.append_assoc, List.singleton_append]
    have hrec := ih (P ++ [none]) R _ hb1
    simp only [List.length_append, List.length_singleton] at hrec
    simp only [forUp, hd, hrec, put_put]
    congr 2
    · simp only [List.append_assoc, List.singleton_append]
    · omega

/-! ## `erase` -/

theorem diff_add_add (p : Ptr) {f l : Nat} (h : f ≤ l) :
    (p.add l).diff (p.add f) = some (l - f) := by
  simp only [Ptr.diff, Ptr.add, true_and]
  rw [if_pos (by omega)]
  congr 1; omega

/-- The member `erase(first, last)` on a non-empty range `[f, l)` of a valid vector. -/
theorem erase_range_valid [Movable T] {m : Mem T} {v : Vector} {xs : List T} (f l : Nat)
    (hv : Valid m v xs) (hlt : f < l) (hl : l ≤ xs.length) :
    ∃ m1, erase_range (v.m_data.add f) (v.m_data.add l) v m
        = Res.ok (v.m_data.add f) { v with m_size := v.m_size - (l - f) } m1 ∧
      Valid m1 { v with m_size := v.m_size - (l - f) } (xs.take f ++ xs.drop l) ∧
      (m.WF → m1.WF) := by
  have hfl : f ≤ l := Nat.le_of_lt hlt
  rcases v with ⟨d, sz, cap⟩
  have hcap := hv.cap_lt
  have hsz := hv.size_eq
  have hle := hv.size_le
  simp only at hcap hsz hle ⊢
  have hu1 : usub sz (l - f) = sz - (l - f) := usub_of_le (by omega) (by omega)
  by_cases hc : cap = 0
  · omega
  · obtain ⟨b, hp, hblk⟩ := hv.has_block (by omega)
    subst hp
    have hsplit : xs.map some ++ List.replicate (cap - xs.length) none
        = (xs.take f).map some ++ (((xs.take l).drop f).map some
            ++ ((xs.drop l).map some ++ List.replicate (cap - xs.length) none)) := by
      rw [← List.append_assoc, ← List.append_assoc, ← List.map_append, ← List.map_append]
      congr 2
      have h1 : xs.take f = (xs.take l).take f := by
        rw [List.take_take, Nat.min_eq_left hfl]
      rw [h1, List.take_append_drop, List.take_append_drop]
    rw [hsplit] at hblk
    have hlP : (List.map some (List.take f xs)).length = f := by
      simp only [List.length_map, List.length_take]; omega
    have hlg : ((xs.take l).drop f).length = l - f := by
      simp only [List.length_drop, List.length_take]; omega
    have hlt : (xs.drop l).length = sz - l := by
      simp only [List.length_drop]; omega
    have hgne : (xs.take l).drop f ≠ [] := by
      intro h; rw [h] at hlg; simp only [List.length_nil] at hlg; omega
    obtain ⟨g2, hg2, hloop⟩ := shift_left_eq (xs.drop l) _ _ _ m hgne hblk
    rw [hlP, hlg, hlt] at hloop
    have hfl2 : f + (l - f) = l := by omega
    rw [hfl2] at hloop
    have hbody : forUp (fun i mm =>
        move_assign (Ptr.add ⟨b, 0⟩ (usub i (l - f))) (Ptr.add ⟨b, 0⟩ i) mm) l (sz - l) m
        = forUp (fun i mm => move_assign ⟨b, i - (l - f)⟩ ⟨b, i⟩ mm) l (sz - l) m := by
      apply forUp_congr; intro j h1 h2
      have : usub j (l - f) = j - (l - f) := usub_of_le (by omega) (by omega)
      simp only [Ptr.add, Nat.zero_add, this]
    have hP2 : List.map some (List.take f xs) ++ (List.map some (List.drop l xs)
        ++ (List.map some g2 ++ List.replicate (cap - xs.length) none))
        = (List.map some (List.take f xs) ++ List.map some (List.drop l xs))
          ++ (List.map some g2 ++ List.replicate (cap - xs.length) none) := by
      rw [List.append_assoc]
    have hdl := destroy_loop_eq g2
      (List.map some (List.take f xs) ++ List.map some (List.drop l xs))
      (List.replicate (cap - xs.length) none)
      (m.put b (List.map some (List.take f xs) ++ (List.map some (List.drop l xs)
        ++ (List.map some g2 ++ List.replicate (cap - xs.length) none))) 0 0)
      (by rw [put_same, hP2])
    have hlP2 : (List.map some (List.take f xs) ++ List.map some (List.drop l xs)).length
        = sz - (l - f) := by
      simp only [List.length_append, List.length_map, List.length_take, List.length_drop]
      omega
    rw [hlP2, hg2, hlg, put_put] at hdl
    have hit : sz - (sz - (l - f)) = l - f := by omega
    refine ⟨m.put b ((List.map some (List.take f xs) ++ List.map some (List.drop l xs))
        ++ (List.replicate (l - f) none ++ List.replicate (cap - xs.length) none))
        (0 + 0) (0 + (l - f)), ?_, ⟨?_, ?_, hcap, Or.inr ⟨rfl, ?_⟩⟩,
      fun hwf => put_wf _ _ _ hwf hblk⟩
    · simp only [erase_range, diff_add, diff_add_add _ hfl, hbody, hloop, hu1, hit]
      simp only [Ptr.add, Nat.zero_add, hdl]
    · simp only [List.length_append, List.length_take, List.length_drop]; omega
    · simp only; omega
    · simp only [put_same, List.map_append, List.append_assoc, List.length_append,
        List.length_take, List.length_drop, List.append_replicate_replicate]
      congr 4; omega

theorem forUp_shift (body : Nat → Mem T → Option (Mem T)) (k : Nat) :
    ∀ (i : Nat) (m : Mem T),
      forUp (fun j mm => body (j + 1) mm) i k m = forUp body (i + 1) k m := by
  induction k with
  | zero => intro i m; rfl
  | succ k ih =>
    intro i m
    simp only [forUp]
    cases body (i + 1) m with
    | none => rfl
    | some m1 => exact ih (i + 1) m1

theorem erase_valid [Movable T] {m : Mem T} {v : Vector} {xs : List T} (k : Nat)
    (hv : Valid m v xs) (hk : k < xs.length) :
    ∃ m1, erase (v.m_data.add k) v m
        = Res.ok (v.m_data.add k) { v with m_size := v.m_size - 1 } m1 ∧
      Valid m1 { v with m_size := v.m_size - 1 } (xs.eraseIdx k) ∧ (m.WF → m1.WF) := by
  rcases v with ⟨d, sz, cap⟩
  have hcap := hv.cap_lt
  have hsz := hv.size_eq
  have hle := hv.size_le
  simp only at hcap hsz hle ⊢
  have hu1 : usub sz 1 = sz - 1 := usub_of_le (by omega) (by omega)
  obtain ⟨b, hp, hblk⟩ := hv.has_block (by omega)
  subst hp
  have hxs : xs.take k ++ xs.get ⟨k, hk⟩ :: xs.drop (k + 1) = xs := by
    rw [List.get_eq_getElem, ← List.drop_eq_getElem_cons hk, List.take_append_drop]
  have hsplit : xs.map some ++ List.replicate (cap - xs.length) none
      = (xs.take k).map some ++ (List.map some [xs.get ⟨k, hk⟩]
          ++ ((xs.drop (k + 1)).map some ++ List.replicate (cap - xs.length) none)) := by
    have hm : xs.map some = (xs.take k ++ xs.get ⟨k, hk⟩ :: xs.drop (k + 1)).map some := by
      rw [hxs]
    rw [hm]
    simp only [List.map_append, List.map_cons, List.map_nil, List.append_assoc,
      List.singleton_append, List.cons_append, List.nil_append]
  rw [hsplit] at hblk
  have hlP : (List.map some (List.take k xs)).length = k := by
    simp only [List.length_map, List.length_take]; omega
  have hlt : (xs.drop (k + 1)).length = sz - 1 - k := by
    simp only [List.length_drop]; omega
  obtain ⟨g2, hg2, hloop⟩ := shift_left_eq (xs.drop (k + 1)) _ _ _ m
    (List.cons_ne_nil _ _) hblk
  rw [hlP, hlt] at hloop
  simp only [List.length_singleton] at hg2 hloop
  obtain ⟨z, hz⟩ : ∃ z, g2 = [z] := List.length_eq_one.mp hg2
  subst hz
  have hbody : forUp (fun i mm =>
      move_assign (Ptr.add ⟨b, 0⟩ i) (Ptr.add ⟨b, 0⟩ (i + 1)) mm) k (sz - 1 - k) m
      = forUp (fun i mm => move_assign ⟨b, i - 1⟩ ⟨b, i⟩ mm) (k + 1) (sz - 1 - k) m := by
    rw [← forUp_shift]
    simp only [Ptr.add, Nat.zero_add, Nat.add_sub_cancel]
  have hP2 : List.map some (List.take k xs) ++ (List.map some (List.drop (k + 1) xs)
      ++ (List.map some [z] ++ List.replicate (cap - xs.length) none))
      = (List.map some (List.take k xs) ++ List.map some (List.drop (k + 1) xs))
        ++ some z :: List.replicate (cap - xs.length) none := by
    simp only [List.map_cons, List.map_nil, List.append_assoc, List.singleton_append]
  have hlP2 : (List.map some (List.take k xs) ++ List.map some (List.drop (k + 1) xs)).length
      = sz - 1 := by
    simp only [List.length_append, List.length_map, List.length_take, List.length_drop]
    omega
  have hd := destroy_at_eq (p := ⟨b, sz - 1⟩)
    (put_same m b (List.map some (List.take k xs) ++ (List.map some (List.drop (k + 1) xs)
      ++ (List.map some [z] ++ List.replicate (cap - xs.length) none))) 0 0)
    (by rw [hP2]; exact get_at hlP2)
  simp only at hd
  rw [hP2, set_at _ hlP2, put_put] at hd
  refine ⟨m.put b ((List.map some (List.take k xs) ++ List.map some (List.drop (k + 1) xs))
      ++ none :: List.replicate (cap - xs.length) none) (0 + 0) (0 + 1), ?_,
    ⟨?_, ?_, hcap, Or.inr ⟨rfl, ?_⟩⟩, fun hwf => put_wf _ _ _ hwf hblk⟩
  · simp only [erase, diff_add, hu1, hbody, hloop]
    simp only [Ptr.add, Nat.zero_add]
    rw [hP2, hd]
  · simp only [List.length_eraseIdx, hk, if_true]; omega
  · simp only; omega
  · simp only [put_same, List.eraseIdx_eq_take_drop_succ, List.map_append, List.append_assoc,
      List.length_append, List.length_take, List.length_drop]
    have : cap - (min k xs.length + (xs.length - (k + 1))) = (cap - xs.length) + 1 := by omega
    rw [this, List.replicate_succ]

/-! ## Reading single elements -/

theorem Valid.load_elem {m : Mem T} {v : Vector} {xs : List T} {k : Nat} {x : T}
    (hv : Valid m v xs) (hx : xs[k]? = some x) : load (v.m_data.add k) m = some x := by
  rcases v with ⟨d, sz, cap⟩
  have hk : k < xs.length := by
    rcases Nat.lt_or_ge k xs.length with h | h
    · exact h
    · rw [List.getElem?_eq_none h] at hx; cases hx
  have hsz := hv.size_eq
  have hle := hv.size_le
  simp only at hsz hle
  obtain ⟨b, hp, hblk⟩ := hv.has_block (by omega)
  subst hp
  refine MiniSTL.load_eq (p := ⟨b, 0 + k⟩) hblk ?_
  rw [Nat.zero_add, List.getElem?_append_left (by simp only [List.length_map]; exact hk),
    List.getElem?_map, hx]
  rfl

theorem chain_length {m : NodeMem T} {stop : Nat} (ns : List Nat) :
    ∀ (p : Nat) (xs : List T), Chain m p ns xs stop → ns.length = xs.length := by
  induction ns with
  | nil =>
    intro p xs h
    cases xs with
    | nil => rfl
    | cons x t => exact absurd h (by simp only [Chain, not_false_eq_true])
  | cons n t ih =>
    intro p xs h
    cases xs with
    | nil => exact absurd h (by simp only [Chain, not_false_eq_true])
    | cons x xt =>
      simp only [Chain] at h
      simp only [List.length_cons, ih n xt h.2]

theorem chain_iterate {m : NodeMem T} {stop : Nat} (ns : List Nat) :
    ∀ (p : Nat) (xs : List T), Chain m p ns xs stop → stop ∉ ns →
      iterate m stop xs.length (ns.head?.getD stop) = some xs := by
  induction ns with
  | nil =>
    intro p xs h _
    cases xs with
    | nil => simp only [List.length_nil, List.head?_nil, Option.getD_none, iterate, if_true]
    | cons x t => exact absurd h (by simp only [Chain, not_false_eq_true])
  | cons n t ih =>
    intro p xs h hs
    cases xs with
    | nil => exact absurd h (by simp only [Chain, not_false_eq_true])
    | cons x xt =>
      simp only [Chain] at h
      have hn : n ≠ stop := fun e => hs (by rw [e]; exact List.mem_cons_self _ _)
      have hrec := ih n xt h.2 (fun e => hs (List.mem_cons_of_mem _ e))
      simp only [List.length_cons, List.head?_cons, Option.getD_some, iterate, hn, if_false,
        h.1, hrec]

theorem Ring.iter_eq {m : NodeMem T} {l : LinkedList} {ns : List Nat} {xs : List T}
    (hr : Ring m l ns xs) : l.toList m = some xs := by
  have hs : l.m_dummy ∉ ns := (List.nodup_cons.mp hr.nodup).1
  simp only [LinkedList.toList, hr.sentinel, hr.size_eq]
  exact chain_iterate ns _ xs hr.chain hs

theorem chain_frame {m m1 : NodeMem T} {q : Nat} (ns : List Nat) :
    ∀ (p : Nat) (xs : List T), (∀ n, n ∈ ns → m1.nodes n = m.nodes n) →
      Chain m p ns xs q → Chain m1 p ns xs q := by
  induction ns with
  | nil =>
    intro p xs _ h
    cases xs with
    | nil => trivial
    | cons x t => exact absurd h (by simp only [Chain, not_false_eq_true])
  | cons n t ih =>
    intro p xs hf h
    cases xs with
    | nil => exact absurd h (by simp only [Chain, not_false_eq_true])
    | cons x xt =>
      simp only [Chain] at h ⊢
      exact ⟨by rw [hf n (List.mem_cons_self _ _)]; exact h.1,
        ih n xt (fun a ha => hf a (List.mem_cons_of_mem _ ha)) h.2⟩

/-- Redirecting the `m_next` link of the last node of a chain. -/
theorem chain_set_next_last {m m1 : NodeMem T} {q q2 nk : Nat} (ns : List Nat) :
    ∀ (p : Nat) (xs : List T), Chain m p ns xs q → ns.Nodup → ns.getLast? = some nk →
      (∀ a, a ≠ nk → m1.nodes a = m.nodes a) →
      m1.nodes nk = (m.nodes nk).map (fun nd => { nd with m_next := q2 }) →
      Chain m1 p ns xs q2 := by
  induction ns with
  | nil => intro p xs _ _ hl; simp only [List.getLast?_nil] at hl; cases hl
  | cons n t ih =>
    intro p xs h hnd hl hf hk
    cases xs with
    | nil => exact absurd h (by simp only [Chain, not_false_eq_true])
    | cons x xt =>
      simp only [Chain] at h ⊢
      cases t with
      | nil =>
        simp only [List.getLast?_singleton, Option.some.injEq] at hl
        subst hl
        have hx : xt = [] := List.length_eq_zero.mp (chain_length [] n xt h.2).symm
        subst hx
        refine ⟨?_, trivial⟩
        rw [hk, h.1]; rfl
      | cons n2 t2 =>
        rw [List.getLast?_cons_cons] at hl
        have hmem : nk ∈ n2 :: t2 := List.mem_of_getLast?_eq_some hl
        have hne : n ≠ nk := by
          intro e; rw [← e] at hmem; exact (List.nodup_cons.mp hnd).1 hmem
        refine ⟨?_, ih n xt h.2 (List.nodup_cons.mp hnd).2 hl hf hk⟩
        rw [hf n hne]; exact h.1

/-- Redirecting the `m_prev` link of the first node of a chain. -/
theorem chain_set_prev_first {m m1 : NodeMem T} {p p2 q n : Nat} {t : List Nat} {xs : List T}
    (h : Chain m p (n :: t) xs q) (hnd : (n :: t).Nodup)
    (hf : ∀ a, a ≠ n → m1.nodes a = m.nodes a)
    (hk : m1.nodes n = (m.nodes n).map (fun nd => { nd with m_prev := p2 })) :
    Chain m1 p2 (n :: t) xs q := by
  cases xs with
  | nil => exact absurd h (by simp only [Chain, not_false_eq_true])
  | cons x xt =>
    simp only [Chain] at h ⊢
    refine ⟨by rw [hk, h.1]; rfl, chain_frame t n xt ?_ h.2⟩
    intro a ha
    exact hf a (fun e => (List.nodup_cons.mp hnd).1 (by rw [← e]; exact ha))

theorem chain_mem {m : NodeMem T} {q : Nat} (ns : List Nat) :
    ∀ (p : Nat) (xs : List T), Chain m p ns xs q → ∀ n, n ∈ ns →
      ∃ nd, m.nodes n = some nd := by
  induction ns with
  | nil => intro p xs _ n hn; cases hn
  | cons n0 t ih =>
    intro p xs h n hn
    cases xs with
    | nil => exact absurd h (by simp only [Chain, not_false_eq_true])
    | cons x xt =>
      simp only [Chain] at h
      rcases List.mem_cons.mp hn with e | e
      · rw [e]; exact ⟨_, h.1⟩
      · exact ih n0 xt h.2 n e

theorem setNode_same (m : NodeMem T) (a : Nat) (nd : ListNode T) :
    (m.setNode a nd).nodes a = some nd := by
  simp only [NodeMem.setNode, if_true]

theorem setNode_other (m : NodeMem T) {a x : Nat} (nd : ListNode T) (h : x ≠ a) :
    (m.setNode a nd).nodes x = m.nodes x := by
  simp only [NodeMem.setNode, h, if_false]

theorem set_next_eq {m : NodeMem T} {p : Nat} {nd : ListNode T} (q : Nat)
    (h : m.nodes p = some nd) :
    set_next p q m = some (m.setNode p { nd with m_next := q }) := by
  simp only [set_next, h, NodeMem.setNode]

theorem set_prev_eq {m : NodeMem T} {p : Nat} {nd : ListNode T} (q : Nat)
    (h : m.nodes p = some nd) :
    set_prev p q m = some (m.setNode p { nd with m_prev := q }) := by
  simp only [set_prev, h, NodeMem.setNode]

theorem write_dummy_eq (m : NodeMem T) (d n p : Nat) :
    write_dummy d n p m = m.setNode d { m_next := n, m_prev := p, m_value := none } := rfl

/-- The member `init_move(List &&)` on a well-formed ring: the nodes are re-parented under
the sentinel at `d`, the source sentinel is linked to itself, and nothing is allocated,
constructed or destroyed. -/
theorem init_move_ring {m : NodeMem T} {a : LinkedList} {ns : List Nat} {xs : List T}
    (d sz : Nat) (hr : Ring m a ns xs) (hd : d ∉ a.m_dummy :: ns) (hd0 : d ≠ 0) :
    ∃ m4, init_move { m_dummy := d, m_size := sz } a m
        = some ({ m_dummy := d, m_size := a.m_size }, { m_dummy := a.m_dummy, m_size := 0 }, m4) ∧
      Ring m4 { m_dummy := d, m_size := a.m_size } ns xs ∧
      Ring m4 { m_dummy := a.m_dummy, m_size := 0 } [] [] ∧
      m4.fresh = m.fresh ∧ m4.avail = m.avail ∧
      m4.constructed = m.constructed ∧ m4.destroyed = m.destroyed := by
  rcases a with ⟨s, asz⟩
  have hsen := hr.sentinel
  have hch := hr.chain
  have hnd := hr.nodup
  have hnn := hr.nonnull
  have hsize := hr.size_eq
  simp only at hsen hch hnd hnn hsize hd ⊢
  have hds : d ≠ s := fun e => hd (by rw [e]; exact List.mem_cons_self _ _)
  have hdns : d ∉ ns := fun e => hd (List.mem_cons_of_mem _ e)
  have hsns : s ∉ ns := (List.nodup_cons.mp hnd).1
  have hs0 : (0 : Nat) ≠ s := fun e => hnn (by rw [← e]; exact List.mem_cons_self _ _)
  have h0ns : (0 : Nat) ∉ ns := fun e => hnn (List.mem_cons_of_mem _ e)
  cases ns with
  | nil =>
    have hx : xs = [] := List.length_eq_zero.mp (chain_length [] s xs hch).symm
    subst hx
    simp only [List.head?_nil, List.getLast?_nil, Option.getD_none] at hsen
    have e1 := set_next_eq d hsen
    have e2 := set_prev_eq d
      (setNode_same m s { m_next := d, m_prev := s, m_value := none })
    refine ⟨(((m.setNode s { m_next := d, m_prev := s, m_value := none }).setNode s
        { m_next := d, m_prev := d, m_value := none }).setNode d
        { m_next := d, m_prev := d, m_value := none }).setNode s
        { m_next := s, m_prev := s, m_value := none }, ?_,
      ⟨hsize, ?_, trivial, ?_, ?_⟩, ⟨rfl, ?_, trivial, ?_, ?_⟩, rfl, rfl, rfl, rfl⟩
    · simp only [init_move, hsen, e1, e2, setNode_same, write_dummy_eq]
    · simp only [List.head?_nil, List.getLast?_nil, Option.getD_none]
      rw [setNode_other _ _ hds, setNode_same]
    · exact List.nodup_singleton d
    · simp only [List.mem_singleton]; exact fun e => hd0 e.symm
    · simp only [List.head?_nil, List.getLast?_nil, Option.getD_none]
      rw [setNode_same]
    · exact List.nodup_singleton s
    · simp only [List.mem_singleton]; exact hs0
  | cons n1 t =>
    obtain ⟨nk, hlast⟩ : ∃ nk, (n1 :: t).getLast? = some nk :=
      ⟨(n1 :: t).getLast (List.cons_ne_nil _ _), List.getLast?_eq_getLast _ _⟩
    have hkmem : nk ∈ n1 :: t := List.mem_of_getLast?_eq_some hlast
    simp only [List.head?_cons, Option.getD_some, hlast] at hsen
    obtain ⟨ndk, hndk⟩ := chain_mem _ _ _ hch nk hkmem
    have hks : s ≠ nk := fun e => hsns (by rw [e]; exact hkmem)
    have h1s : s ≠ n1 := fun e => hsns (by rw [e]; exact List.mem_cons_self _ _)
    have hnd2 : (n1 :: t).Nodup := (List.nodup_cons.mp hnd).2
    have e1 := set_next_eq d hndk
    have hc1 : Chain (m.setNode nk { ndk with m_next := d }) s (n1 :: t) xs d := by
      apply chain_set_next_last (n1 :: t) s xs hch hnd2 hlast
      · intro x hx; exact setNode_other _ _ hx
      · rw [setNode_same, hndk]; rfl
    obtain ⟨nd1, hnd1⟩ := chain_mem _ _ _ hc1 n1 (List.mem_cons_self _ _)
    have e2 := set_prev_eq d hnd1
    have hc2 : Chain ((m.setNode nk { ndk with m_next := d }).setNode n1
        { nd1 with m_prev := d }) d (n1 :: t) xs d := by
      apply chain_set_prev_first hc1 hnd2
      · intro x hx; exact setNode_other _ _ hx
      · rw [setNode_same, hnd1]; rfl
    have hs2 : ((m.setNode nk { ndk with m_next := d }).setNode n1
        { nd1 with m_prev := d }).nodes s
        = some { m_next := n1, m_prev := nk, m_value := none } := by
      rw [setNode_other _ _ h1s, setNode_other _ _ hks, hsen]
    refine ⟨((((m.setNode nk { ndk with m_next := d }).setNode n1
        { nd1 with m_prev := d }).setNode d
        { m_next := n1, m_prev := nk, m_value := none }).setNode s
        { m_next := s, m_prev := s, m_value := none }), ?_,
      ⟨hsize, ?_, ?_, ?_, ?_⟩, ⟨rfl, ?_, trivial, ?_, ?_⟩, rfl, rfl, rfl, rfl⟩
    · simp only [init_move, hsen, e1, e2, hs2, write_dummy_eq]
    · simp only [List.head?_cons, Option.getD_some, hlast]
      rw [setNode_other _ _ hds, setNode_same]
    · apply chain_frame (n1 :: t) d xs ?_ hc2
      intro n hn
      have hns : n ≠ s := fun e => hsns (by rw [← e]; exact hn)
      have hnd : n ≠ d := fun e => hdns (by rw [← e]; exact hn)
      rw [setNode_other _ _ hns, setNode_other _ _ hnd]
    · exact List.nodup_cons.mpr ⟨hdns, hnd2⟩
    · intro e
      rcases List.mem_cons.mp e with e | e
      · exact hd0 e.symm
      · exact h0ns e
    · simp only [List.head?_nil, List.getLast?_nil, Option.getD_none]
      rw [setNode_same]
    · exact List.nodup_singleton s
    · simp only [List.mem_singleton]; exact hs0

/-! ## Linking and unlinking a node of the ring -/

theorem nodup_length_le {l : List Nat} {n : Nat} (hnd : l.Nodup) (hb : ∀ a, a ∈ l → a < n) :
    l.length ≤ n := by
  have h1 : l.toFinset ⊆ Finset.range n := by
    intro a ha
    exact Finset.mem_range.mpr (hb a (List.mem_toFinset.mp ha))
  have h2 := Finset.card_le_card h1
  rw [List.toFinset_card_of_nodup hnd, Finset.card_range] at h2
  exact h2

theorem chain_split {m : NodeMem T} {s : Nat} {B : List Nat} {xb : List T} (A : List Nat) :
    ∀ (prev : Nat) (xa : List T), Chain m prev (A ++ B) (xa ++ xb) s → A.length = xa.length →
      Chain m (A.getLast?.getD prev) B xb s := by
  induction A with
  | nil =>
    intro prev xa h hl
    have : xa = [] := List.length_eq_zero.mp hl.symm
    subst this
    simpa using h
  | cons a A ih =>
    intro prev xa h hl
    cases xa with
    | nil => simp at hl
    | cons x xa =>
      simp only [List.cons_append, Chain] at h
      have := ih a xa h.2 (by simpa using hl)
      rw [List.getLast?_cons]
      exact this

theorem redirect_none {a p q np nq : Nat} (nd : ListNode T) (hp : a ≠ p) (hq : a ≠ q) :
    redirect a p q np nq nd = nd := by
  cases nd; simp only [redirect, hp, hq, if_false]

theorem getLast_getD_mem {l : List Nat} (d : Nat) (h : l ≠ []) : l.getLast?.getD d ∈ l := by
  rw [List.getLast?_eq_getLast _ h]
  exact List.getLast_mem h

theorem head_getD_mem {l : List Nat} (d : Nat) (h : l ≠ []) : l.head?.getD d ∈ l := by
  cases l with
  | nil => exact absurd rfl h
  | cons a t => simp

theorem chain_relink_first {m m2 : NodeMem T} {s prev p np nq : Nat} {B : List Nat}
    {xb : List T} (h : Chain m prev B xb s) (hnd : B.Nodup) (hp : p ∉ B)
    (hm : ∀ a, a ∈ B → m2.nodes a
      = (m.nodes a).map (redirect a p (B.head?.getD s) np nq)) :
    Chain m2 nq B xb s := by
  cases B with
  | nil =>
    cases xb with
    | nil => trivial
    | cons x t => exact absurd h (by simp only [Chain, not_false_eq_true])
  | cons q B2 =>
    cases xb with
    | nil => exact absurd h (by simp only [Chain, not_false_eq_true])
    | cons x xt =>
      simp only [Chain] at h ⊢
      have hqp : q ≠ p := fun e => hp (by rw [← e]; exact List.mem_cons_self _ _)
      refine ⟨?_, chain_frame B2 q xt ?_ h.2⟩
      · rw [hm q (List.mem_cons_self _ _), h.1]
        simp only [Option.map_some', redirect, List.head?_cons, Option.getD_some, hqp, if_false,
          if_true]
      · intro a ha
        have haq : a ≠ q := fun e => (List.nodup_cons.mp hnd).1 (by rw [← e]; exact ha)
        have hap : a ≠ p := fun e => hp (by rw [← e]; exact List.mem_cons_of_mem _ ha)
        rw [hm a (List.mem_cons_of_mem _ ha)]
        simp only [List.head?_cons, Option.getD_some]
        cases m.nodes a with
        | none => rfl
        | some nd => simp only [Option.map_some', redirect_none nd hap haq]

theorem ring_bound {m : NodeMem T} {l : LinkedList} {ns : List Nat} {xs : List T}
    (hwf : m.WF) (hr : Ring m l ns xs) : l.m_size + 1 < 2 ^ 64 := by
  have hb : ∀ a, a ∈ l.m_dummy :: ns → a < m.fresh := by
    intro a ha
    rcases Nat.lt_or_ge a m.fresh with h | h
    · exact h
    · exfalso
      have hnone := hwf.fresh_free a h
      rcases List.mem_cons.mp ha with e | e
      · rw [e, hr.sentinel] at hnone; cases hnone
      · obtain ⟨nd, hnd⟩ := chain_mem ns _ xs hr.chain a e
        rw [hnd] at hnone; cases hnone
  have h1 := nodup_length_le hr.nodup hb
  have h2 := chain_length ns _ xs hr.chain
  have h3 := hr.size_eq
  have h4 := hwf.fresh_lt
  simp only [List.length_cons] at h1
  omega

theorem construct_value_eq {m : NodeMem T} {a : Nat} {nd : ListNode T} (val : T)
    (h : m.nodes a = some nd) :
    construct_value a val m
      = some (({ m with constructed := m.constructed + 1 } : NodeMem T).setNode a
          { nd with m_value := some val }) := by
  simp only [construct_value, h, NodeMem.setNode]

theorem ring_node {m : NodeMem T} {l : LinkedList} {ns : List Nat} {xs : List T}
    (hr : Ring m l ns xs) {a : Nat} (ha : a ∈ l.m_dummy :: ns) : ∃ nd, m.nodes a = some nd := by
  rcases List.mem_cons.mp ha with e | e
  · rw [e]; exact ⟨_, hr.sentinel⟩
  · exact chain_mem ns _ xs hr.chain a e

theorem chain_unlink {m m2 : NodeMem T} {s c : Nat} {x : T} {B : List Nat} {xb : List T}
    (A : List Nat) :
    ∀ (prev : Nat) (xa : List T), Chain m prev (A ++ c :: B) (xa ++ x :: xb) s →
      A.length = xa.length → (prev :: (A ++ c :: B)).Nodup → s ∉ A →
      (∀ a, a ∈ A ++ B → m2.nodes a
        = (m.nodes a).map (redirect a (A.getLast?.getD prev) (B.head?.getD s)
            (B.head?.getD s) (A.getLast?.getD prev))) →
      Chain m2 prev (A ++ B) (xa ++ xb) s := by
  induction A with
  | nil =>
    intro prev xa h hl hnd _ hm
    have : xa = [] := List.length_eq_zero.mp hl.symm
    subst this
    simp only [List.nil_append, List.getLast?_nil, Option.getD_none, Chain] at h hnd hm ⊢
    have hnd2 := (List.nodup_cons.mp hnd).2
    have hpB : prev ∉ B := fun e =>
      (List.nodup_cons.mp hnd).1 (List.mem_cons_of_mem _ e)
    exact chain_relink_first h.2 (List.nodup_cons.mp hnd2).2 hpB hm
  | cons a0 A ih =>
    intro prev xa h hl hnd hs hm
    cases xa with
    | nil => simp at hl
    | cons x0 xa =>
      simp only [List.cons_append, Chain] at h hnd ⊢
      have hnd2 := (List.nodup_cons.mp hnd).2
      have ha0 : a0 ∉ A ++ c :: B := (List.nodup_cons.mp hnd2).1
      have ha0s : a0 ≠ s := fun e => hs (by rw [← e]; exact List.mem_cons_self _ _)
      have hlast : (a0 :: A).getLast?.getD prev = A.getLast?.getD a0 := by
        rw [List.getLast?_cons]; rfl
      rw [hlast] at hm
      refine ⟨?_, ih a0 xa h.2 (by simpa using hl) hnd2
        (fun e => hs (List.mem_cons_of_mem _ e))
        (fun a ha => hm a (List.mem_cons_of_mem _ ha))⟩
      rw [hm a0 (List.mem_cons_self _ _), h.1]
      have hq : a0 ≠ B.head?.getD s := by
        cases B with
        | nil => simpa using ha0s
        | cons b B2 =>
          simp only [List.head?_cons, Option.getD_some]
          intro e; apply ha0; rw [e]; simp
      cases A with
      | nil =>
        simp only [Option.map_some', redirect, List.getLast?_nil, Option.getD_none, if_true,
          hq, if_false]
        rfl
      | cons a1 A2 =>
        have hp : a0 ≠ (a1 :: A2).getLast?.getD a0 := by
          intro e
          apply ha0
          rw [e]
          exact List.mem_append_left _ (getLast_getD_mem _ (List.cons_ne_nil _ _))
        simp only [Option.map_some', redirect, hp, hq, if_false]
        rfl

theorem ring_unlink {m m2 : NodeMem T} {s sz c : Nat} {x : T} {A B : List Nat}
    {xa xb : List T} (hr : Ring m ⟨s, sz⟩ (A ++ c :: B) (xa ++ x :: xb))
    (hl : A.length = xa.length)
    (hm : ∀ a, a ≠ c → m2.nodes a
      = (m.nodes a).map (redirect a (A.getLast?.getD s) (B.head?.getD s)
          (B.head?.getD s) (A.getLast?.getD s))) :
    Ring m2 ⟨s, sz - 1⟩ (A ++ B) (xa ++ xb) := by
  have hsen := hr.sentinel
  have hnd := hr.nodup
  have hnn := hr.nonnull
  have hsz := hr.size_eq
  simp only at hsen hnd hnn hsz
  have hsAB : s ∉ A ++ c :: B := (List.nodup_cons.mp hnd).1
  have hsA : s ∉ A := fun e => hsAB (List.mem_append_left _ e)
  have hsB : s ∉ B := fun e => hsAB (List.mem_append_right _ (List.mem_cons_of_mem _ e))
  have hcs : s ≠ c := fun e => hsAB (by rw [e]; simp)
  have h2 : s :: (A ++ c :: B) = (s :: A) ++ c :: B := rfl
  have hnd3 : (c :: (s :: A ++ B)).Nodup := by
    rw [h2] at hnd; exact List.nodup_middle.mp hnd
  have hcAB : c ∉ A ++ B := fun e => (List.nodup_cons.mp hnd3).1 (List.mem_cons_of_mem _ e)
  refine ⟨?_, ?_, ?_, ?_, ?_⟩
  · simp only [List.length_append, List.length_cons] at hsz ⊢; omega
  · simp only
    rw [hm s hcs, hsen]
    simp only [Option.map_some', redirect, Option.some.injEq, ListNode.mk.injEq, and_true]
    constructor
    · cases A with
      | nil => simp
      | cons a A2 =>
        have : s ≠ (a :: A2).getLast?.getD s := fun e =>
          hsA (by rw [e]; exact getLast_getD_mem _ (List.cons_ne_nil _ _))
        simp [this]
    · cases B with
      | nil => simp
      | cons b B2 =>
        have : s ≠ b := fun e => hsB (by rw [e]; exact List.mem_cons_self _ _)
        simp [this]
  · exact chain_unlink A s xa hr.chain hl hnd hsA
      (fun a ha => hm a (fun e => hcAB (by rw [← e]; exact ha)))
  · exact (List.nodup_cons.mp hnd3).2
  · simp only [List.mem_cons, List.mem_append, not_or] at hnn ⊢
    exact ⟨hnn.1, hnn.2.1, hnn.2.2.2⟩

theorem unlink_finish {m m4 : NodeMem T} {s sz c : Nat} {x : T} {A B : List Nat}
    {xa xb : List T} (hwf : m.WF) (hr : Ring m ⟨s, sz⟩ (A ++ c :: B) (xa ++ x :: xb))
    (hl : A.length = xa.length) (hf : m4.fresh = m.fresh)
    (hc : m4.constructed = m.constructed) (hd : m4.destroyed = m.destroyed + 1)
    (hv : m4.avail = m.avail + 1) (h1 : m4.nodes c = none)
    (hm : ∀ a, a ≠ c → m4.nodes a
        = (m.nodes a).map (redirect a (A.getLast?.getD s) (B.head?.getD s)
            (B.head?.getD s) (A.getLast?.getD s))) :
    Ring m4 ⟨s, sz - 1⟩ (A ++ B) (xa ++ xb) ∧ m4.nodes c = none ∧
      (∀ a, a ≠ c → m4.nodes a
        = (m.nodes a).map (redirect a (A.getLast?.getD s) (B.head?.getD s)
            (B.head?.getD s) (A.getLast?.getD s))) ∧
      m4.WF ∧ m4.fresh = m.fresh ∧ m4.constructed = m.constructed ∧
      m4.destroyed = m.destroyed + 1 ∧ m4.avail = m.avail + 1 := by
  have hnone : ∀ a, m.nodes a = none → m4.nodes a = none := by
    intro a ha
    by_cases hac : a = c
    · rw [hac]; exact h1
    · rw [hm a hac, ha]; rfl
  refine ⟨ring_unlink hr hl hm, h1, hm, ⟨hnone 0 hwf.null_free, by rw [hf]; exact hwf.fresh_pos,
    ?_, by rw [hf]; exact hwf.fresh_lt⟩, hf, hc, hd, hv⟩
  intro a ha
  rw [hf] at ha
  exact hnone a (hwf.fresh_free a ha)

/-- The member `erase(pos)` on a ring split as `A ++ c :: B`, where `c` is `pos`. -/
theorem list_erase_ring {m : NodeMem T} {s sz c : Nat} {x : T} {A B : List Nat}
    {xa xb : List T} (hwf : m.WF) (hr : Ring m ⟨s, sz⟩ (A ++ c :: B) (xa ++ x :: xb))
    (hl : A.length = xa.length) :
    ∃ m4, LinkedList.erase c ⟨s, sz⟩ m = LRes.ok (B.head?.getD s) ⟨s, sz - 1⟩ m4 ∧
      Ring m4 ⟨s, sz - 1⟩ (A ++ B) (xa ++ xb) ∧ m4.nodes c = none ∧
      (∀ a, a ≠ c → m4.nodes a
        = (m.nodes a).map (redirect a (A.getLast?.getD s) (B.head?.getD s)
            (B.head?.getD s) (A.getLast?.getD s))) ∧
      m4.WF ∧ m4.fresh = m.fresh ∧ m4.constructed = m.constructed ∧
      m4.destroyed = m.destroyed + 1 ∧ m4.avail = m.avail + 1 := by
  have hbd := ring_bound hwf hr
  have hsz := hr.size_eq
  have hnd := hr.nodup
  simp only at hbd hsz hnd
  have hsz1 : 1 ≤ sz := by
    simp only [List.length_append, List.length_cons] at hsz; omega
  have hus : usub sz 1 = sz - 1 := usub_of_le hsz1 (by omega)
  have hc := (chain_split A s xa hr.chain hl)
  simp only [Chain] at hc
  have hc1 := hc.1
  have h2 : s :: (A ++ c :: B) = (s :: A) ++ c :: B := rfl
  have hnd3 : (c :: (s :: A ++ B)).Nodup := by
    rw [h2] at hnd; exact List.nodup_middle.mp hnd
  have hcn : c ∉ s :: (A ++ B) := (List.nodup_cons.mp hnd3).1
  have hqm : B.head?.getD s ∈ s :: (A ++ B) := by
    cases B with
    | nil => exact List.mem_cons_self _ _
    | cons b B2 => simp
  have hpm : A.getLast?.getD s ∈ s :: (A ++ B) := by
    cases A with
    | nil => exact List.mem_cons_self _ _
    | cons a A2 =>
      exact List.mem_cons_of_mem _
        (List.mem_append_left _ (getLast_getD_mem _ (List.cons_ne_nil _ _)))
  have hqc : B.head?.getD s ≠ c := fun e => hcn (by rw [← e]; exact hqm)
  have hpc : A.getLast?.getD s ≠ c := fun e => hcn (by rw [← e]; exact hpm)
  have hsub : ∀ a, a ∈ s :: (A ++ B) → a ∈ s :: (A ++ c :: B) := by
    intro a ha
    rcases List.mem_cons.mp ha with e | e
    · rw [e]; exact List.mem_cons_self _ _
    · rcases List.mem_append.mp e with e2 | e2
      · exact List.mem_cons_of_mem _ (List.mem_append_left _ e2)
      · exact List.mem_cons_of_mem _ (List.mem_append_right _ (List.mem_cons_of_mem _ e2))
  obtain ⟨ndq, hq⟩ := ring_node hr (hsub _ hqm)
  obtain ⟨ndp, hp⟩ := ring_node hr (hsub _ hpm)
  by_cases hpq : A.getLast?.getD s = B.head?.getD s
  · rw [hpq] at hp hc1 hpc
    simp only [LinkedList.erase, Option.bind, get_next, get_prev, set_prev, set_next,
      destroy_value, deallocate_node, hc1, hq, hqc, Ne.symm hqc, hus, if_true, if_false]
    refine ⟨_, rfl, ?_⟩
    refine unlink_finish hwf hr hl ?_ ?_ ?_ ?_ ?_ ?_
    · rfl
    · rfl
    · rfl
    · rfl
    · simp only [if_true]
    · intro a hac
      by_cases haq : a = B.head?.getD s
      · simp only [hac, haq, hqc, hq, Option.map_some', redirect, hpq, if_true, if_false]
      · have hap : a ≠ A.getLast?.getD s := by rw [hpq]; exact haq
        simp only [hac, haq, if_false]
        cases m.nodes a with
        | none => rfl
        | some nd => simp only [Option.map_some', redirect_none nd hap haq]
  · have hpq3 : B.head?.getD s ≠ A.getLast?.getD s := fun e => hpq e.symm
    simp only [LinkedList.erase, Option.bind, get_next, get_prev, set_prev, set_next,
      destroy_value, deallocate_node, hc1, hq, hp, hqc, hpc, Ne.symm hqc, Ne.symm hpc, hus,
      hpq, hpq3, if_true, if_false]
    refine ⟨_, rfl, ?_⟩
    refine unlink_finish hwf hr hl ?_ ?_ ?_ ?_ ?_ ?_
    · rfl
    · rfl
    · rfl
    · rfl
    · simp only [if_true]
    · intro a hac
      by_cases haq : a = B.head?.getD s
      · simp only [hac, haq, hqc, hq, Option.map_some', redirect, hpq3, if_true, if_false]
      · by_cases hap : a = A.getLast?.getD s
        · simp only [hac, hap, hpc, hp, hpq, Option.map_some', redirect, if_true, if_false]
        · simp only [hac, haq, hap, if_false]
          cases m.nodes a with
          | none => rfl
          | some nd => simp only [Option.map_some', redirect_none nd hap haq]

/-! ## Allocation failure in the growth of a `Vector` -/

theorem mem12_wf : mem12.WF := by
  refine ⟨rfl, by decide, ?_⟩
  intro a h
  have h1 : a ≠ 1 := by simp only [mem12] at h; omega
  simp only [mem12, h1, if_false]

theorem vec12_valid : Valid mem12 vec12 [1, 2] :=
  ⟨rfl, Nat.le_refl _, by simp only [vec12]; omega, Or.inr ⟨rfl, rfl⟩⟩

theorem vec123_valid : Valid mem123 vec123 [1, 2, 3] :=
  ⟨rfl, Nat.le_refl _, by simp only [vec123]; omega, Or.inr ⟨rfl, rfl⟩⟩

theorem vec_abc_valid : Valid mem_abc vec_abc ["a", "b", "c"] :=
  ⟨rfl, Nat.le_refl _, by simp only [vec_abc]; omega, Or.inr ⟨rfl, rfl⟩⟩

theorem list12_ring : Ring nmem12 list12 [2, 3] [1, 2] :=
  ⟨rfl, rfl, ⟨rfl, rfl, trivial⟩, by decide, by decide⟩

theorem nmem12_wf : nmem12.WF := by
  refine ⟨rfl, by decide, ?_, by decide⟩
  intro a h
  have h4 : nmem12.fresh = 4 := rfl
  rw [h4] at h
  have h1 : a ≠ 1 := by omega
  have h2 : a ≠ 2 := by omega
  have h3 : a ≠ 3 := by omega
  simp only [nmem12, h1, h2, h3, if_false]

theorem vec12_cap4_valid : Valid mem12_cap4 vec12_cap4 [1, 2] :=
  ⟨rfl, by decide, by simp only [vec12_cap4]; omega, Or.inr ⟨rfl, rfl⟩⟩

/-- C1: `reserve(n)` on a valid vector holding `xs` returns normally (the allocator being
able to serve the growth request when one is made); if `n ≤ capacity()` the object and the
memory are unchanged, otherwise `capacity()` becomes `max(n, 2 * old capacity)`; in both
cases `capacity() ≥ n` afterwards, `size()` is unchanged and the elements at the indices
`[0, size)` are `xs` before and after the call, the vector being valid again. -/
theorem reserve_spec (m : Mem T) (v : Vector) (xs : List T) (n : Nat)
    (hwf : m.WF) (hv : Valid m v xs)
    (ha : v.capacity < n → m.can_alloc (max n (2 * v.capacity))) :
    ∃ v2 m2, reserve n v m = Res.ok () v2 m2 ∧
      (n ≤ v.capacity → v2 = v ∧ m2 = m) ∧
      (v.capacity < n → v2.capacity = max n (2 * v.capacity)) ∧
      n ≤ v2.capacity ∧ v2.size = v.size ∧
      v.toList m = some xs ∧ v2.toList m2 = some xs ∧ Valid m2 v2 xs := by
  by_cases hn : n ≤ v.m_cap
  · refine ⟨v, m, by simp only [reserve, hn, if_true], fun _ => ⟨rfl, rfl⟩, ?_, hn, rfl,
      hv.toList_eq, hv.toList_eq, hv⟩
    intro h; simp only [Vector.capacity] at h; omega
  · have hlt : v.m_cap < n := by omega
    obtain ⟨m2, hr, hv2, _, _, _⟩ := reserve_grow hwf hv hlt (ha hlt)
    refine ⟨_, m2, hr, ?_, fun _ => rfl, ?_, rfl, hv.toList_eq, hv2.toList_eq, hv2⟩
    · intro h; simp only [Vector.capacity] at h; omega
    · simp only [Vector.capacity]; omega

/-- Instance of C1: growing the full vector `[1, 2]` of capacity `2` with `reserve(3)`. -/
theorem reserve_spec_witness :
    mem12.WF ∧ Valid mem12 vec12 [1, 2] ∧
    ∃ v2 m2, reserve 3 vec12 mem12 = Res.ok () v2 m2 ∧
      (3 ≤ vec12.capacity → v2 = vec12 ∧ m2 = mem12) ∧
      (vec12.capacity < 3 → v2.capacity = max 3 (2 * vec12.capacity)) ∧
      3 ≤ v2.capacity ∧ v2.size = vec12.size ∧
      vec12.toList mem12 = some [1, 2] ∧ v2.toList m2 = some [1, 2] ∧ Valid m2 v2 [1, 2] :=
  ⟨mem12_wf, vec12_valid,
    reserve_spec mem12 vec12 [1, 2] 3 mem12_wf vec12_valid
      (fun _ => ⟨by decide, by decide⟩)⟩

/-- C3: on the code, `push_back` never grows the block.  On a default-constructed vector
and on the full vector `[1, 2]` of capacity `2` the construction at `&m_data[m_size]` lies
outside every block, which is undefined behaviour, whereas the sibling `insert(end(), 3)`
on the same full vector does grow and yields `[1, 2, 3]`. -/
theorem push_back_full_no_growth :
    push_back 1 Vector.default mem_empty = Res.ub ∧
    push_back 3 vec12 mem12 = Res.ub ∧
    ∃ v2 m2, insert vec12.end_ (Arg.obj 3) vec12 mem12 = Res.ok (v2.begin.add 2) v2 m2 ∧
      v2.toList m2 = some [1, 2, 3] ∧ 3 ≤ v2.capacity := by
  refine ⟨rfl, rfl, ?_⟩
  obtain ⟨v1, m1, h1, hv1, _, _, _⟩ := insert_valid 2 (Arg.obj 3) 3 mem12_wf vec12_valid
    (by decide) (fun _ => ⟨by decide, by decide⟩) rfl (fun p h => by cases h)
  refine ⟨v1, m1, h1, hv1.toList_eq, ?_⟩
  have h2 := hv1.size_eq
  have h3 := hv1.size_le
  simp only [List.length_append, List.length_take, List.length_cons, List.length_drop,
    List.length_nil] at h2
  simp only [Vector.capacity]; omega

/-- C6: `erase(begin() + k)` with `k < size()` on a valid vector holding `xs` returns
normally; the vector then holds `xs` with exactly the element at index `k` removed, the
others in their original order, `size()` has decreased by 1, `capacity()` is unchanged, and
the result is the position of index `k`: it designates the element that followed the
erased one, or is `end()` when `k` was the last index. -/
theorem erase_spec [Movable T] (m : Mem T) (v : Vector) (xs : List T) (k : Nat)
    (hv : Valid m v xs) (hk : k < v.size) :
    ∃ r v2 m2, erase (v.begin.add k) v m = Res.ok r v2 m2 ∧
      v2.toList m2 = some (xs.eraseIdx k) ∧ Valid m2 v2 (xs.eraseIdx k) ∧
      v2.size + 1 = v.size ∧ v2.capacity = v.capacity ∧ r = v2.begin.add k ∧
      (∀ y, xs[k + 1]? = some y → load r m2 = some y) ∧
      (k + 1 = v.size → r = v2.end_) := by
  have hsz := hv.size_eq
  have hk2 : k < xs.length := by rw [← hsz]; exact hk
  obtain ⟨m1, h1, hv1, _⟩ := erase_valid k hv hk2
  refine ⟨_, _, m1, h1, hv1.toList_eq, hv1, ?_, rfl, rfl, ?_, ?_⟩
  · simp only [Vector.size] at hk ⊢; omega
  · intro y hy
    apply hv1.load_elem
    rw [List.getElem?_eraseIdx, if_neg (by omega)]
    exact hy
  · intro h
    simp only [Vector.size] at h
    simp only [Vector.end_, Vector.begin]
    congr 1; omega

/-- Instance of C6: on `[1, 2, 3]`, erasing the position of `2` gives `[1, 3]` of size 2. -/
theorem erase_spec_witness :
    Valid mem123 vec123 [1, 2, 3] ∧ 1 < vec123.size ∧
    ∃ r v2 m2, erase (vec123.begin.add 1) vec123 mem123 = Res.ok r v2 m2 ∧
      v2.toList m2 = some [1, 3] ∧ Valid m2 v2 [1, 3] ∧
      v2.size + 1 = vec123.size ∧ v2.capacity = vec123.capacity ∧ r = v2.begin.add 1 ∧
      (∀ y, [1, 2, 3][1 + 1]? = some y → load r m2 = some y) ∧
      (1 + 1 = vec123.size → r = v2.end_) :=
  ⟨vec123_valid, by decide,
    erase_spec mem123 vec123 [1, 2, 3] 1 vec123_valid (by decide)⟩

/-- C7: on the code, erasing an empty range is not a no-op.  `erase(first, last)` has no
guard for `first == last`: its loop runs `m_data[i - 0] = std::move(m_data[i])` for every
index from `first` on, a move assignment of each of these elements to itself.  On the
vector of strings `[a, b, c]`, `erase(begin() + 1, begin() + 1)` returns `begin() + 1`
and leaves size and capacity at `3`, but the vector then holds `[a, "", ""]`.  A non-empty
range on the same vector gives what the claim says (`erase(begin() + 1, begin() + 2)`
leaves `[a, c]`), an empty range at `end()` moves nothing, on the vector of `int`
`[1, 2, 3]` the self moves leave the values, and the sibling `insert(begin() + 1, 0, x)`,
which has the guard `if (!n) return`, leaves object and memory as they were. -/
theorem erase_range_empty_self_move :
    Valid mem_abc vec_abc ["a", "b", "c"] ∧
    (∃ m2, erase_range (vec_abc.begin.add 1) (vec_abc.begin.add 1) vec_abc mem_abc
        = Res.ok (vec_abc.begin.add 1) vec_abc m2 ∧
      vec_abc.toList m2 = some ["a", "", ""] ∧ vec_abc.toList m2 ≠ some ["a", "b", "c"]) ∧
    (∃ r v2 m2, erase_range (vec_abc.begin.add 1) (vec_abc.begin.add 2) vec_abc mem_abc
        = Res.ok r v2 m2 ∧
      r = v2.begin.add 1 ∧ v2.size = 2 ∧ v2.capacity = 3 ∧ v2.toList m2 = some ["a", "c"]) ∧
    erase_range (vec_abc.begin.add 3) (vec_abc.begin.add 3) vec_abc mem_abc
      = Res.ok (vec_abc.begin.add 3) vec_abc mem_abc ∧
    (∃ m2, erase_range (vec123.begin.add 1) (vec123.begin.add 1) vec123 mem123
        = Res.ok (vec123.begin.add 1) vec123 m2 ∧ vec123.toList m2 = some [1, 2, 3]) ∧
    insert_n (vec_abc.begin.add 1) 0 (Arg.obj "x") vec_abc mem_abc
      = Res.ok (vec_abc.begin.add 1) vec_abc mem_abc :=
  ⟨vec_abc_valid, ⟨_, rfl, rfl, by decide⟩, ⟨_, _, _, rfl, rfl, rfl, rfl, rfl⟩, rfl,
    ⟨_, rfl, rfl⟩, rfl⟩

/-- C9: move invariant.  Move-constructing a vector from a valid vector `v` holding `xs`
gives an object that holds `xs` with `size()` equal to the prior size, over the very same
memory, and leaves `v` default-constructed (no block, size and capacity `0`).
Move-constructing a list at address `d` from a well-formed ring `a` holding `ys` gives a
ring made of the same nodes holding `ys` with `size()` equal to the prior size, and leaves
`a` with size `0` and its sentinel linked to itself; no node is allocated and no element is
constructed or destroyed.  Both hold for an empty source as well. -/
theorem move_invariant (mv : Mem T) (v : Vector) (xs : List T) (hv : Valid mv v xs)
    (ml : NodeMem T) (a : LinkedList) (ns : List Nat) (ys : List T) (d : Nat)
    (hr : Ring ml a ns ys) (hd : d ∉ a.m_dummy :: ns) (hd0 : d ≠ 0) :
    (Valid mv (Vector.move_ctor v).1 xs ∧ (Vector.move_ctor v).1.toList mv = some xs ∧
      (Vector.move_ctor v).1.size = v.size ∧
      (Vector.move_ctor v).2 = Vector.default ∧ (Vector.move_ctor v).2.size = 0 ∧
      Valid mv (Vector.move_ctor v).2 []) ∧
    ∃ b a2 ml2, LinkedList.move_ctor d a ml = some (b, a2, ml2) ∧
      Ring ml2 b ns ys ∧ b.toList ml2 = some ys ∧ b.size = a.size ∧
      a2.size = 0 ∧ a2.m_dummy = a.m_dummy ∧ a2.toList ml2 = some [] ∧
      ml2.nodes a.m_dummy
        = some { m_next := a.m_dummy, m_prev := a.m_dummy, m_value := none } ∧
      ml2.fresh = ml.fresh ∧ ml2.constructed = ml.constructed ∧
      ml2.destroyed = ml.destroyed := by
  constructor
  · have hv1 : Valid mv (Vector.move_ctor v).1 xs :=
      ⟨hv.size_eq, hv.size_le, hv.cap_lt, hv.block⟩
    have hv2 : Valid mv (Vector.move_ctor v).2 ([] : List T) :=
      ⟨rfl, Nat.le_refl _, by simp only [Vector.move_ctor]; omega, Or.inl ⟨rfl, rfl⟩⟩
    exact ⟨hv1, hv1.toList_eq, rfl, rfl, rfl, hv2⟩
  · obtain ⟨m4, h, hb, ha, hf, _, hc, hds⟩ := init_move_ring d a.m_size hr hd hd0
    exact ⟨_, _, m4, h, hb, hb.iter_eq, rfl, rfl, rfl, ha.iter_eq, ha.sentinel, hf, hc,
      hds⟩

/-- Instance of C9: moving the vector `[1, 2]`, and moving the list `[1, 2]` to the
address `4`. -/
theorem move_invariant_witness :
    Valid mem12 vec12 [1, 2] ∧ Ring nmem12 list12 [2, 3] [1, 2] ∧
    (Valid mem12 (Vector.move_ctor vec12).1 [1, 2] ∧
      (Vector.move_ctor vec12).1.toList mem12 = some [1, 2] ∧
      (Vector.move_ctor vec12).1.size = vec12.size ∧
      (Vector.move_ctor vec12).2 = Vector.default ∧ (Vector.move_ctor vec12).2.size = 0 ∧
      Valid mem12 (Vector.move_ctor vec12).2 []) ∧
    ∃ b a2 ml2, LinkedList.move_ctor 4 list12 nmem12 = some (b, a2, ml2) ∧
      Ring ml2 b [2, 3] [1, 2] ∧ b.toList ml2 = some [1, 2] ∧ b.size = list12.size ∧
      a2.size = 0 ∧ a2.m_dummy = list12.m_dummy ∧ a2.toList ml2 = some [] ∧
      ml2.nodes list12.m_dummy
        = some { m_next := list12.m_dummy, m_prev := list12.m_dummy, m_value := none } ∧
      ml2.fresh = nmem12.fresh ∧ ml2.constructed = nmem12.constructed ∧
      ml2.destroyed = nmem12.destroyed :=
  ⟨vec12_valid, list12_ring,
    move_invariant mem12 vec12 [1, 2] vec12_valid nmem12 list12 [2, 3] [1, 2] 4 list12_ring
      (by decide) (by decide)⟩

/-- C10: on the code, copy-constructing a list does not copy.  The copy constructor runs
`init_move(std::move(that))` like the move constructor: applied at address `4` to the list
`[1, 2]` it allocates and constructs nothing, hands the original's own nodes `2` and `3`
to the new object and leaves the original empty (size `0`, no elements). -/
theorem list_copy_ctor_moves :
    Ring nmem12 list12 [2, 3] [1, 2] ∧ list12.toList nmem12 = some [1, 2] ∧
    ∃ b a2 m2, LinkedList.copy_ctor 4 list12 nmem12 = some (b, a2, m2) ∧
      a2.m_dummy = list12.m_dummy ∧ a2.size = 0 ∧ a2.toList m2 = some [] ∧
      b.toList m2 = some [1, 2] ∧ Ring m2 b [2, 3] [1, 2] ∧
      m2.fresh = nmem12.fresh ∧ m2.constructed = nmem12.constructed := by
  refine ⟨list12_ring, rfl, ?_⟩
  obtain ⟨m4, h, hb, ha, hf, _, hc, _⟩ :=
    init_move_ring (T := Nat) 4 list12.m_size list12_ring (by decide) (by decide)
  exact ⟨_, _, m4, h, rfl, rfl, ha.iter_eq, hb.iter_eq, hb, hf, hc⟩

/-- C13: on the code, bulk insertion does not keep the input order.  After each single
insertion the loop advances `pos` (`++pos`), so the next element goes in front of the node
after `pos` instead of in front of `pos`.  Inserting the range `[1, 2, 3]` at `end()` of the
list built by `List()` yields the iteration sequence `[2, 1, 3]`, and the returned iterator,
the node `2` holding `1`, is the second node in iteration order.  Inserting two copies of
`9`, or the range `[7, 8, 9]`, at the first element (node `3`) of `[0, 1, 2]` yields
`[9, 0, 9, 1, 2]` and `[7, 0, 8, 1, 9, 2]`.  With a count of `0` or an empty range the
result is `pos`. -/
theorem list_bulk_insert_interleaves :
    (∃ r l m, LinkedList.insert_range list_nil.end_ [1, 2, 3] list_nil nmem_nil
        = LRes.ok r l m ∧
      iterate m l.end_ 3 r = some [1, 3] ∧ r = 2 ∧ l.forward 3 m = some [3, 2, 4] ∧
      (l.begin m).bind (iterate m l.end_ 3) = some [2, 1, 3]) ∧
    (∃ l m, list012 = LRes.ok () l m ∧ l.toList m = some [0, 1, 2] ∧
      l.begin m = some 3) ∧
    (∃ r l m, list012.andThen (LinkedList.insert_n 3 2 9) = LRes.ok r l m ∧
      (l.begin m).bind (iterate m l.end_ 5) = some [9, 0, 9, 1, 2]) ∧
    (∃ r l m, list012.andThen (LinkedList.insert_range 3 [7, 8, 9]) = LRes.ok r l m ∧
      (l.begin m).bind (iterate m l.end_ 6) = some [7, 0, 8, 1, 9, 2]) ∧
    (LinkedList.insert_n list_nil.end_ 0 7 list_nil nmem_nil).value = some list_nil.end_ ∧
    (LinkedList.insert_range list_nil.end_ [] list_nil nmem_nil).value
      = some list_nil.end_ :=
  ⟨⟨_, _, _, rfl, rfl, rfl, rfl, rfl⟩, ⟨_, _, rfl, rfl, rfl⟩, ⟨_, _, _, rfl, rfl⟩,
    ⟨_, _, _, rfl, rfl⟩, rfl, rfl⟩

/-- C14: on a well-formed ring whose nodes `A ++ c :: B` hold `xa ++ x :: xb`,
`erase(pos)` at the element node `c` returns normally.  It unlinks exactly that node: the
iteration sequence becomes `xa ++ xb`; `size()` has decreased by exactly 1; the ring is
closed again over the remaining nodes in their order; the node `c` is gone, its element
destroyed; every other node is still there with its value, its `m_next` link unless it is
the node before `c` and its `m_prev` link unless it is the node after `c`; and the returned
iterator is the node that followed `c`, or `end()` when `c` was last. -/
theorem list_erase_spec (m : NodeMem T) (l : LinkedList) (A B : List Nat) (c : Nat)
    (xa xb : List T) (x : T) (hwf : m.WF) (hr : Ring m l (A ++ c :: B) (xa ++ x :: xb))
    (hl : A.length = xa.length) :
    ∃ l1 m1, l.erase c m = LRes.ok (B.head?.getD l.end_) l1 m1 ∧
      l1.toList m1 = some (xa ++ xb) ∧ l1.size + 1 = l.size ∧ l1.end_ = l.end_ ∧
      Ring m1 l1 (A ++ B) (xa ++ xb) ∧ m1.nodes c = none ∧
      m1.destroyed = m.destroyed + 1 ∧
      (∀ a nd, a ≠ c → m.nodes a = some nd →
        ∃ nd1, m1.nodes a = some nd1 ∧ nd1.m_value = nd.m_value ∧
          (a ≠ A.getLast?.getD l.end_ → nd1.m_next = nd.m_next) ∧
          (a ≠ B.head?.getD l.end_ → nd1.m_prev = nd.m_prev)) := by
  obtain ⟨s, sz⟩ := l
  obtain ⟨m1, h, hr1, hn, hm, _, _, _, hd, _⟩ := list_erase_ring hwf hr hl
  have hsz := hr.size_eq
  simp only [List.length_append, List.length_cons] at hsz
  refine ⟨_, m1, h, hr1.iter_eq, ?_, rfl, hr1, hn, hd, ?_⟩
  · simp only [LinkedList.size]; omega
  · intro a nd hac hnd
    have h1 := hm a hac
    rw [hnd] at h1
    refine ⟨_, h1, rfl, ?_, ?_⟩
    · intro hp; exact if_neg hp
    · intro hq; exact if_neg hq

/-- Instance of C14: erasing the first element of the list `[1, 2]`. -/
theorem list_erase_spec_witness :
    nmem12.WF ∧ Ring nmem12 list12 ([] ++ 2 :: [3]) ([] ++ 1 :: [2]) ∧
    ∃ l1 m1, list12.erase 2 nmem12 = LRes.ok 3 l1 m1 ∧
      l1.toList m1 = some [2] ∧ l1.size + 1 = list12.size ∧ l1.end_ = list12.end_ ∧
      Ring m1 l1 [3] [2] ∧ m1.nodes 2 = none ∧
      m1.destroyed = nmem12.destroyed + 1 ∧
      (∀ a nd, a ≠ 2 → nmem12.nodes a = some nd →
        ∃ nd1, m1.nodes a = some nd1 ∧ nd1.m_value = nd.m_value ∧
          (a ≠ 1 → nd1.m_next = nd.m_next) ∧ (a ≠ 3 → nd1.m_prev = nd.m_prev)) :=
  ⟨nmem12_wf, list12_ring,
    list_erase_spec nmem12 list12 [] [3] 2 [] [2] 1 nmem12_wf list12_ring rfl⟩

/-- C15: on the code, `pop_back()` does not erase the last element.  Its body is
`erase(this->rbegin())`; the reverse iterator stores the position `end()`, and erasing
there unlinks the sentinel and destroys an element that does not exist, which is undefined
behaviour.  On the list `[0, 1, 2]`, `pop_front()` yields `[1, 2]` with size `2`,
`pop_back()` is undefined, and `erase` at the node before the sentinel is what yields
`[0, 1]` with size `2`. -/
theorem list_pop_back_erases_sentinel :
    (∃ l m, list012 = LRes.ok () l m ∧ l.size = 3 ∧ l.toList m = some [0, 1, 2] ∧
      l.rbegin = l.end_ ∧ get_prev l.end_ m = some 4) ∧
    (∃ l m, list012.andThen LinkedList.pop_front = LRes.ok () l m ∧ l.size = 2 ∧
      l.toList m = some [1, 2]) ∧
    list012.andThen LinkedList.pop_back = LRes.ub ∧
    (∃ r l m, list012.andThen (LinkedList.erase 4) = LRes.ok r l m ∧ l.size = 2 ∧
      l.toList m = some [0, 1]) :=
  ⟨⟨_, _, rfl, rfl, rfl, rfl, rfl⟩, ⟨_, _, rfl, rfl, rfl⟩, rfl, ⟨_, _, _, rfl, rfl, rfl⟩⟩

/-- C16: on the code, `Vector::empty()` is `m_data == nullptr`, not `size() == 0`.  After
`clear()` on the valid vector `[1, 2]` the size is `0`, the capacity is unchanged and the
vector is valid and holds no element, yet `empty()` returns `false`, the block being still
owned. -/
theorem vector_empty_after_clear :
    Valid mem12 vec12 [1, 2] ∧
    ∃ v m, Vector.clear vec12 mem12 = Res.ok () v m ∧ v.size = 0 ∧
      v.capacity = vec12.capacity ∧ v.toList m = some [] ∧ Valid m v [] ∧
      v.empty = false :=
  ⟨vec12_valid, _, _, rfl, rfl, rfl, rfl,
    ⟨rfl, by decide, by simp only [vec12]; omega, Or.inr ⟨rfl, rfl⟩⟩, rfl⟩

/-- C17: on the code, `List::empty()` is `return m_dummy.m_prev = m_dummy.m_next;`, an
assignment whose value is a non-null pointer.  It returns `true` on the list `[0, 1, 2]`,
as it does on the list built by `List()`, and it overwrites the `m_prev` link of the
sentinel, which was the last node `4`, with the first node `3`. -/
theorem list_empty_returns_true :
    (∃ l m, list012 = LRes.ok () l m ∧ l.size = 3 ∧ l.toList m = some [0, 1, 2] ∧
      get_next l.end_ m = some 3 ∧ get_prev l.end_ m = some 4) ∧
    (∃ l m, list012.andThen LinkedList.empty = LRes.ok true l m ∧ l.size = 3 ∧
      l.toList m = some [0, 1, 2] ∧ get_next l.end_ m = some 3 ∧
      get_prev l.end_ m = some 3) ∧
    (∃ l m, LinkedList.empty list_nil nmem_nil = LRes.ok true l m ∧ l.size = 0 ∧
      l.toList m = some []) :=
  ⟨⟨_, _, rfl, rfl, rfl, rfl, rfl⟩, ⟨_, _, rfl, rfl, rfl, rfl, rfl⟩, ⟨_, _, rfl, rfl, rfl⟩⟩

/-- C18: on the code, the constructor `Vector(Vector const &, Alloc const &)` breaks the
representation invariant.  It takes `m_cap` from the source but allocates `m_size` slots:
copying the valid vector `[1, 2]` of capacity `4` gives size `2` and capacity `4` over a
block of two slots, which is a valid state for no element sequence, and the following
`push_back(3)`, called with a free slot according to `capacity()`, constructs outside the
block, which is undefined.  The sibling `Vector(Vector const &)` takes `m_cap` from the
source size and gives a valid vector. -/
theorem vector_copy_alloc_breaks_invariant :
    Valid mem12_cap4 vec12_cap4 [1, 2] ∧
    (∃ v m, Vector.copy_ctor_alloc vec12_cap4 mem12_cap4 = Res.ok () v m ∧ v.size = 2 ∧
      v.capacity = 4 ∧ m.blocks v.m_data.base = some [some 1, some 2] ∧
      (∀ xs, ¬ Valid m v xs) ∧ push_back 3 v m = Res.ub) ∧
    (∃ v m, Vector.copy_ctor vec12_cap4 mem12_cap4 = Res.ok () v m ∧ v.size = 2 ∧
      v.capacity = 2 ∧ Valid m v [1, 2]) := by
  refine ⟨vec12_cap4_valid, ⟨_, _, rfl, rfl, rfl, rfl, ?_, rfl⟩,
    ⟨_, _, rfl, rfl, rfl, ⟨rfl, by decide, by decide, Or.inr ⟨rfl, rfl⟩⟩⟩⟩
  intro xs h
  have h1 := h.size_eq
  rcases h.block with ⟨h2, _⟩ | ⟨_, h2⟩
  · exact absurd h2 (by decide)
  · have h3 : (some [some 1, some 2] : Option (List (Option Nat)))
        = some (xs.map some ++ List.replicate (4 - xs.length) none) := h2
    have h4 := congrArg (Option.map List.length) h3
    have h5 : 2 = xs.length := h1
    simp only [Option.map_some', List.length_cons, List.length_nil, List.length_append,
      List.length_map, List.length_replicate, Option.some.injEq] at h4
    omega

/-- C19: on the code, a reachable state of `List` need not be a closed ring consistent
with `size()`.  After `push_back(1); push_front(0); push_back(2)` the ring is closed with
three element nodes both ways; a call of `empty()` then leaves `size()` at `3` while
following `m_prev` from the sentinel passes one element node only.  After inserting two
copies of `7` into the list built by `List()`, `size()` is `6` while two element nodes are
linked. -/
theorem list_ring_not_preserved :
    (∃ l m, list012 = LRes.ok () l m ∧ l.size = 3 ∧ l.forward 3 m = some [3, 2, 4] ∧
      l.backward 3 m = some [4, 2, 3]) ∧
    (∃ r l m, list012.andThen LinkedList.empty = LRes.ok r l m ∧ l.size = 3 ∧
      l.forward 3 m = some [3, 2, 4] ∧ l.backward 3 m = some [3]) ∧
    (∃ r l m, LinkedList.insert_n list_nil.end_ 2 7 list_nil nmem_nil = LRes.ok r l m ∧
      l.size = 6 ∧ l.forward 6 m = some [3, 2] ∧ l.backward 6 m = some [2, 3]) :=
  ⟨⟨_, _, rfl, rfl, rfl, rfl⟩, ⟨_, _, _, rfl, rfl, rfl, rfl⟩, ⟨_, _, _, rfl, rfl, rfl, rfl⟩⟩

/-- C20: on the code, bulk insertion counts every element more than once.
`insert(pos, n, val)` adds `n` to `m_size` up front and then, for each element, increments
it in the loop and again in the single `insert`: inserting two copies of `7` into the list
built by `List()` links two nodes and gives `size() = 6`.  The range overload increments
twice for each element: inserting `[1, 2, 3]` links three nodes and gives `size() = 6`.
The single `insert` adds exactly 1. -/
theorem list_bulk_insert_size :
    list_nil.size = 0 ∧
    (∃ r l m, LinkedList.insert_n list_nil.end_ 2 7 list_nil nmem_nil = LRes.ok r l m ∧
      l.size = 6 ∧ (l.forward 6 m).map List.length = some 2) ∧
    (∃ r l m, LinkedList.insert_range list_nil.end_ [1, 2, 3] list_nil nmem_nil
        = LRes.ok r l m ∧
      l.size = 6 ∧ (l.forward 6 m).map List.length = some 3) ∧
    (∃ r l m, LinkedList.insert list_nil.end_ 7 list_nil nmem_nil = LRes.ok r l m ∧
      l.size = 1 ∧ (l.forward 6 m).map List.length = some 1) :=
  ⟨rfl, ⟨_, _, _, rfl, rfl, rfl⟩, ⟨_, _, _, rfl, rfl, rfl⟩, ⟨_, _, _, rfl, rfl, rfl⟩⟩

/-- C21: on the code, `List(n, val)`, `List(n)` and `assign(n, val)` leave `size()` at `0`.
`init_move(size_t n)` and `init_move(size_t n, T const &val)` count `n` down to `0` in
their loop and then execute `m_size = n`.  `List(2, 7)` builds a closed ring of two nodes
holding `7` with `size() = 0`; `List(3)` over a type whose default value is `0` builds three
nodes with `size() = 0`; `assign(2, 7)` on the list `[0, 1, 2]` leaves two nodes holding `7`
with `size() = 0`; whatever `n`, the size after a normal return is `0`. -/
theorem list_fill_size_zero :
    (∃ l m, LinkedList.ctor_n 1 2 7 nmem_empty = LRes.ok () l m ∧ l.size = 0 ∧
      l.forward 2 m = some [2, 3] ∧ l.backward 2 m = some [3, 2] ∧
      (l.begin m).bind (iterate m l.end_ 2) = some [7, 7]) ∧
    (∃ l m, LinkedList.ctor_n 1 3 0 nmem_empty = LRes.ok () l m ∧ l.size = 0 ∧
      l.forward 3 m = some [2, 3, 4] ∧
      (l.begin m).bind (iterate m l.end_ 3) = some [0, 0, 0]) ∧
    (∃ l m, list012.andThen (LinkedList.assign_n 3 2 7) = LRes.ok () l m ∧ l.size = 0 ∧
      l.forward 2 m = some [5, 6] ∧
      (l.begin m).bind (iterate m l.end_ 2) = some [7, 7]) ∧
    (∀ (n : Nat) (val : Nat) (l l1 : LinkedList) (m m1 : NodeMem Nat),
      LinkedList.init_move_n n val l m = LRes.ok () l1 m1 → l1.size = 0) := by
  refine ⟨⟨_, _, rfl, rfl, rfl, rfl, rfl⟩, ⟨_, _, rfl, rfl, rfl, rfl⟩,
    ⟨_, _, rfl, rfl, rfl, rfl⟩, ?_⟩
  intro n val l l1 m m1 h
  have hloop : ∀ (k prev : Nat) (a : LinkedList) (ma : NodeMem Nat) (r : Nat × Nat)
      (b : LinkedList) (mb : NodeMem Nat),
      LinkedList.init_move_n_loop val k prev a ma = LRes.ok r b mb → r.1 = 0 := by
    intro k
    induction k with
    | zero =>
      intro prev a ma r b mb hk
      simp only [LinkedList.init_move_n_loop] at hk
      cases hk; rfl
    | succ k ih =>
      intro prev a ma r b mb hk
      simp only [LinkedList.init_move_n_loop] at hk
      split at hk
      · cases hk
      · split at hk
        · exact ih _ _ _ _ _ _ hk
        · cases hk
  unfold LinkedList.init_move_n at h
  split at h
  · cases h
  · cases h
  · next n1 prev l2 m2 hl =>
    have h0 := hloop _ _ _ _ _ _ _ hl
    simp only at h0
    split at h
    · cases h
      simp only [LinkedList.size, h0]
    · cases h

/-- C23: on the code, `shrink_to_fit()` does not give the strong guarantee.  It executes
`m_cap = m_size` before it allocates: on the valid vector `[1, 2]` of capacity `4`, with no
slot left, the allocation error propagates with `capacity() = 2` over the block of four
slots, a state that is valid for no element sequence.  With slots available the call gives
a valid vector of capacity `2`, and `reserve(5)` on the same failing input leaves the
object as it was. -/
theorem shrink_to_fit_no_strong_guarantee :
    Valid mem12_cap4_full vec12_cap4 [1, 2] ∧ vec12_cap4.capacity = 4 ∧
    (∃ v, shrink_to_fit vec12_cap4 mem12_cap4_full = Res.bad_alloc v mem12_cap4_full ∧
      v.size = 2 ∧ v.capacity = 2 ∧ v.begin = vec12_cap4.begin ∧
      mem12_cap4_full.blocks v.begin.base = some [some 1, some 2, none, none] ∧
      ∀ xs, ¬ Valid mem12_cap4_full v xs) ∧
    (∃ v m, shrink_to_fit vec12_cap4 mem12_cap4 = Res.ok () v m ∧ v.capacity = 2 ∧
      Valid m v [1, 2]) ∧
    reserve 5 vec12_cap4 mem12_cap4_full = Res.bad_alloc vec12_cap4 mem12_cap4_full := by
  refine ⟨⟨rfl, by decide, by simp only [vec12_cap4]; omega, Or.inr ⟨rfl, rfl⟩⟩, rfl,
    ⟨_, rfl, rfl, rfl, rfl, rfl, ?_⟩,
    ⟨_, _, rfl, rfl, ⟨rfl, by decide, by decide, Or.inr ⟨rfl, rfl⟩⟩⟩, rfl⟩
  intro xs h
  have h1 := h.size_eq
  rcases h.block with ⟨h2, _⟩ | ⟨_, h2⟩
  · exact absurd h2 (by decide)
  · have h3 : (some [some 1, some 2, none, none] : Option (List (Option Nat)))
        = some (xs.map some ++ List.replicate (2 - xs.length) none) := h2
    have h4 := congrArg (Option.map List.length) h3
    have h5 : 2 = xs.length := h1
    simp only [Option.map_some', List.length_cons, List.length_nil, List.length_append,
      List.length_map, List.length_replicate, Option.some.injEq] at h4
    omega

/-- C24: on the code, a failed node allocation does not leave the prior state.
`push_back`, `push_front` and `insert` execute `++m_size` before they allocate: on the ring
`[1, 2]`, with no node left, the allocation error propagates with the memory, hence every
node and link, unchanged, but with `size() = 3` over two element nodes. -/
theorem list_alloc_failure_size :
    Ring nmem12_full list12 [2, 3] [1, 2] ∧ list12.size = 2 ∧
    (∃ l, list12.push_back 3 nmem12_full = LRes.bad_alloc l nmem12_full ∧ l.size = 3 ∧
      l.forward 3 nmem12_full = some [2, 3] ∧ ∀ ns xs, ¬ Ring nmem12_full l ns xs) ∧
    (∃ l, list12.push_front 3 nmem12_full = LRes.bad_alloc l nmem12_full ∧ l.size = 3 ∧
      l.forward 3 nmem12_full = some [2, 3]) ∧
    (∃ l, list12.insert 3 9 nmem12_full = LRes.bad_alloc l nmem12_full ∧ l.size = 3 ∧
      l.forward 3 nmem12_full = some [2, 3]) := by
  refine ⟨⟨rfl, rfl, ⟨rfl, rfl, trivial⟩, by decide, by decide⟩, rfl,
    ⟨_, rfl, rfl, rfl, ?_⟩, ⟨_, rfl, rfl, rfl⟩, ⟨_, rfl, rfl, rfl⟩⟩
  intro ns xs h
  have h1 : (3 : Nat) = xs.length := h.size_eq
  have h2 := chain_length ns _ xs h.chain
  have hs := h.sentinel
  have hs2 : (some (ListNode.mk 2 3 none) : Option (ListNode Nat))
      = some (ListNode.mk (ns.head?.getD 1) (ns.getLast?.getD 1) none) := hs
  simp only [Option.some.injEq, ListNode.mk.injEq, and_true] at hs2
  obtain ⟨a, b, c, rfl⟩ := List.length_eq_three.mp (h2.trans h1.symm)
  obtain ⟨x, y, z, rfl⟩ := List.length_eq_three.mp h1.symm
  have hc := h.chain
  simp only [Chain, List.head?_cons, Option.getD_some] at hc hs2
  obtain ⟨ha, hb, _⟩ := hc
  have e : a = 2 := hs2.1.symm
  subst e
  have hb1 : (some (ListNode.mk 3 1 (some 1)) : Option (ListNode Nat))
      = some (ListNode.mk b 1 (some x)) := ha
  simp only [Option.some.injEq, ListNode.mk.injEq] at hb1
  have e2 : b = 3 := hb1.1.symm
  subst e2
  have hc1 : (some (ListNode.mk 1 2 (some 2)) : Option (ListNode Nat))
      = some (ListNode.mk c 2 (some y)) := hb
  simp only [Option.some.injEq, ListNode.mk.injEq] at hc1
  have e3 : c = 1 := hc1.1.symm
  have hnd := h.nodup
  rw [e3] at hnd
  exact absurd hnd (by decide)

/-- C25: on the code, `List::empty()` is not a pure query.  It executes
`m_dummy.m_prev = m_dummy.m_next`: on the list `[0, 1, 2]` the call leaves `size()` and the
forward iteration as they were, but the `m_prev` link of the sentinel goes from the last
node `4` to the first node `3`, the backward walk passes one node instead of three, and
`back()` returns `0` where it returned `2`. -/
theorem list_empty_not_pure :
    (∃ l m, list012 = LRes.ok () l m ∧ l.size = 3 ∧ l.toList m = some [0, 1, 2] ∧
      get_next l.end_ m = some 3 ∧ get_prev l.end_ m = some 4 ∧
      l.backward 3 m = some [4, 2, 3] ∧ l.back m = some 2) ∧
    (∃ r l m, list012.andThen LinkedList.empty = LRes.ok r l m ∧ l.size = 3 ∧
      l.toList m = some [0, 1, 2] ∧
      get_next l.end_ m = some 3 ∧ get_prev l.end_ m = some 3 ∧
      l.backward 3 m = some [3] ∧ l.back m = some 0) :=
  ⟨⟨_, _, rfl, rfl, rfl, rfl, rfl, rfl, rfl⟩, ⟨_, _, _, rfl, rfl, rfl, rfl, rfl, rfl, rfl⟩⟩

end MiniSTL
